import Mathlib

/-!
Verification of the local persistence and query layer of the TOEIC AI tutor
application (`src/db.ts`), shallowly embedded in Lean 4.

Modelling conventions:
* IndexedDB object stores are lists of records in insertion (= ascending key)
  order; the auto-increment key generators are explicit `nextWordId` /
  `nextIdiomId` counters in the store state.
* JavaScript strings are Lean `String`s; the TypeScript string enums
  (`Level`, `VocabCategory`, `PartOfSpeech`, `VocabType`) are their string
  values, so that malformed externally-sourced records (e.g. a part of speech
  outside the enumeration) are representable, as they are at the JS boundary.
* Absent / `null` / `undefined` fields are `Option.none`; the JavaScript
  truthiness tests of the source (`!item.english`, `item.pos && ...`,
  `if (frequencyLevel)`) are modelled by explicit emptiness / zero tests.
* `Math.random()`-driven draws are passed in explicitly: Fisher-Yates draws
  as a list of naturals (interpreted modulo the live range, exactly the image
  of `Math.floor(Math.random() * (i + 1))`), random sort comparators as a list
  of booleans (the sign of `0.5 - Math.random()`).
* `console.warn` logging is modelled by a warning counter so that warned
  skips and silent skips are distinguishable.
-/

/-- The `PARTS_OF_SPEECH` enumeration from `constants.ts`. -/
def PARTS_OF_SPEECH : List String := ["Noun", "Verb", "Adjective", "Adverb"]

/-- The `VocabDBItem` record shape from `types.ts`.  `id` is absent until the
store assigns it; `pos` is a string or null/absent; `frequencyLevel` is an
optional numeric tier. -/
structure VocabDBItem where
  id : Option Nat
  english : String
  japanese : String
  pos : Option String
  example_en : String
  example_jp : String
  level : String
  category : String
  type : String
  frequencyLevel : Option Nat
deriving DecidableEq, Repr

/-- State of the database: the `words` and `idioms` object stores (in key
order) together with their auto-increment key generators. -/
structure DBState where
  words : List VocabDBItem
  idioms : List VocabDBItem
  nextWordId : Nat
  nextIdiomId : Nat
deriving DecidableEq, Repr

/-- The empty database (fresh install after schema creation). -/
def emptyDB : DBState := ⟨[], [], 1, 1⟩

/-- Probe of the unique `english_pos` index of the `words` store:
`wordsIndex.get([item.english, item.pos])` in `addVocabularyItems`. -/
def findWordDup (words : List VocabDBItem) (item : VocabDBItem) : Option VocabDBItem :=
  words.find? (fun r => r.english == item.english && r.pos == item.pos)

/-- Probe of the unique `english` index of the `idioms` store:
`idiomsIndex.get(item.english)` in `addVocabularyItems`. -/
def findIdiomDup (idioms : List VocabDBItem) (item : VocabDBItem) : Option VocabDBItem :=
  idioms.find? (fun r => r.english == item.english)

/-- Insertion of a validated word record: `wordsStore.add(data)` with the
auto-increment key assigned to the `id` key path. -/
def insertWord (st : DBState) (item : VocabDBItem) : DBState :=
  { st with
      words := st.words ++ [{ item with id := some st.nextWordId }],
      nextWordId := st.nextWordId + 1 }

/-- Insertion of a validated idiom record: `idiomsStore.add({...data, pos: null})`
with the auto-increment key assigned to the `id` key path. -/
def insertIdiom (st : DBState) (item : VocabDBItem) : DBState :=
  { st with
      idioms := st.idioms ++ [{ item with id := some st.nextIdiomId, pos := none }],
      nextIdiomId := st.nextIdiomId + 1 }

/-- Processing of one candidate record by the loop body of
`addVocabularyItems` (db.ts lines 116-149).  Returns the store state after
the item together with the number of records inserted (0 or 1) and the number
of `console.warn` validation messages emitted (0 or 1) for this item. -/
def processItem (st : DBState) (item : VocabDBItem) : DBState × Nat × Nat :=
  if item.english == "" || item.type == "" then
    (st, 0, 1)
  else if item.japanese == "" || item.example_en == "" || item.example_jp == ""
      || item.level == "" || item.category == "" then
    (st, 0, 1)
  else if item.type == "word" then
    match item.pos with
    | some p =>
      if PARTS_OF_SPEECH.contains p then
        match findWordDup st.words item with
        | some _ => (st, 0, 0)
        | none => (insertWord st item, 1, 0)
      else (st, 0, 1)
    | none => (st, 0, 1)
  else if item.type == "idiom" then
    match findIdiomDup st.idioms item with
    | some _ => (st, 0, 0)
    | none => (insertIdiom st item, 1, 0)
  else (st, 0, 0)

/-- The `addVocabularyItems` batch ingest (db.ts lines 106-158), on the
fault-free path: iterates the loop body over the input list inside one
read-write transaction and commits.  Returns the final store state, the
returned `addedCount`, and the number of validation warnings logged. -/
def addVocabularyItems : List VocabDBItem → DBState → DBState × Nat × Nat
  | [], st => (st, 0, 0)
  | item :: rest, st =>
    let s1 := processItem st item
    let s2 := addVocabularyItems rest s1.1
    (s2.1, s1.2.1 + s2.2.1, s1.2.2 + s2.2.2)

/-- Validity of a candidate record, exactly the conjunction of the per-record
checks of the `addVocabularyItems` loop body: non-empty `english` and `type`,
non-empty core data fields, a recognised `type`, and for words a part of
speech drawn from `PARTS_OF_SPEECH`. -/
def validItem (item : VocabDBItem) : Bool :=
  item.english != "" && item.type != "" && item.japanese != "" && item.example_en != ""
    && item.example_jp != "" && item.level != "" && item.category != ""
    && (item.type == "word" || item.type == "idiom")
    && (!(item.type == "word")
        || (match item.pos with
            | some p => PARTS_OF_SPEECH.contains p
            | none => false))

/-- Duplicate probe a candidate record is subjected to: the `english_pos`
index for words, the `english` index for everything routed to idioms. -/
def storedAlready (st : DBState) (item : VocabDBItem) : Bool :=
  if item.type == "word" then (findWordDup st.words item).isSome
  else (findIdiomDup st.idioms item).isSome

/-- Invalidity per the claim wording: some required field missing, or a word
with a missing or non-enumerated part of speech. -/
def invalidItem (item : VocabDBItem) : Bool :=
  item.english == "" || item.type == "" || item.japanese == "" || item.example_en == ""
    || item.example_jp == "" || item.level == "" || item.category == ""
    || (item.type == "word"
        && !(match item.pos with
             | some p => PARTS_OF_SPEECH.contains p
             | none => false))

/-- Uniqueness keys of the `words` store, in store order: the key of its
unique `english_pos` index. -/
def wordKeys (st : DBState) : List (String × Option String) :=
  st.words.map (fun r => (r.english, r.pos))

/-- Uniqueness keys of the `idioms` store, in store order: the key of its
unique `english` index. -/
def idiomKeys (st : DBState) : List String :=
  st.idioms.map (fun r => r.english)

/-- The uniqueness invariant enforced by the two unique indexes: no two word
records share (english, pos), no two idiom records share english. -/
def UniqueKeys (st : DBState) : Prop :=
  (wordKeys st).Nodup ∧ (idiomKeys st).Nodup

instance (st : DBState) : Decidable (UniqueKeys st) := by
  unfold UniqueKeys; infer_instance

/-- Running a sequence of `addVocabularyItems` calls, batch after batch. -/
def addBatches (batches : List (List VocabDBItem)) (st : DBState) : DBState :=
  batches.foldl (fun s b => (addVocabularyItems b s).1) st


/-! ### Basic lemmas about the ingest loop body -/

/-- A record failing one of the validation checks is skipped with a warning
and changes neither the store nor the added count. -/
theorem processItem_invalid (st : DBState) (item : VocabDBItem)
    (h : invalidItem item = true) : processItem st item = (st, 0, 1) := by
  unfold processItem
  repeat' split
  all_goals first
    | rfl
    | (exfalso; simp_all [invalidItem, findWordDup, findIdiomDup])

/-- Unfolding of the validity predicate into its propositional content. -/
theorem validItem_iff (item : VocabDBItem) : validItem item = true ↔
    item.english ≠ "" ∧ item.type ≠ "" ∧ item.japanese ≠ "" ∧ item.example_en ≠ "" ∧
    item.example_jp ≠ "" ∧ item.level ≠ "" ∧ item.category ≠ "" ∧
    (item.type = "word" ∨ item.type = "idiom") ∧
    (item.type = "word" → ∃ p, item.pos = some p ∧ p ∈ PARTS_OF_SPEECH) := by
  unfold validItem
  cases hp : item.pos <;> simp [hp, and_assoc]
  tauto

/-- A valid record whose uniqueness key is already present is skipped
silently: no insertion, no count, no warning. -/
theorem processItem_dup (st : DBState) (item : VocabDBItem)
    (hv : validItem item = true) (hs : storedAlready st item = true) :
    processItem st item = (st, 0, 0) := by
  rw [validItem_iff] at hv
  obtain ⟨he, hty, hj, hee, hej, hl, hc, hwi, hpos⟩ := hv
  unfold processItem
  rw [if_neg (by simp [he, hty]), if_neg (by simp [hj, hee, hej, hl, hc])]
  rcases hwi with hw | hi
  · obtain ⟨p, hp, hpin⟩ := hpos hw
    rw [if_pos (by simp [hw])]
    have hsome : (findWordDup st.words item).isSome = true := by
      simpa [storedAlready, hw] using hs
    obtain ⟨v, hv'⟩ := Option.isSome_iff_exists.mp hsome
    simp [hp, hv', hpin]
  · rw [if_neg (by simp [hi]), if_pos (by simp [hi])]
    have hsome : (findIdiomDup st.idioms item).isSome = true := by
      simpa [storedAlready, hi] using hs
    obtain ⟨v, hv'⟩ := Option.isSome_iff_exists.mp hsome
    simp [hv']

/-- A valid, not-yet-stored word record is inserted into the `words` store. -/
theorem processItem_new_word (st : DBState) (item : VocabDBItem)
    (hv : validItem item = true) (ht : item.type = "word")
    (hs : storedAlready st item = false) :
    processItem st item = (insertWord st item, 1, 0) := by
  rw [validItem_iff] at hv
  obtain ⟨he, hty, hj, hee, hej, hl, hc, _, hpos⟩ := hv
  obtain ⟨p, hp, hpin⟩ := hpos ht
  unfold processItem
  rw [if_neg (by simp [he, hty]), if_neg (by simp [hj, hee, hej, hl, hc]),
    if_pos (by simp [ht])]
  have hnone : findWordDup st.words item = none := by
    have := (Bool.not_eq_true _).mpr hs
    simpa [storedAlready, ht, Option.not_isSome_iff_eq_none] using this
  simp [hp, hnone, hpin]

/-- A valid, not-yet-stored idiom record is inserted into the `idioms`
store. -/
theorem processItem_new_idiom (st : DBState) (item : VocabDBItem)
    (hv : validItem item = true) (ht : item.type = "idiom")
    (hs : storedAlready st item = false) :
    processItem st item = (insertIdiom st item, 1, 0) := by
  rw [validItem_iff] at hv
  obtain ⟨he, hty, hj, hee, hej, hl, hc, _, _⟩ := hv
  unfold processItem
  rw [if_neg (by simp [he, hty]), if_neg (by simp [hj, hee, hej, hl, hc]),
    if_neg (by simp [ht]), if_pos (by simp [ht])]
  have hnone : findIdiomDup st.idioms item = none := by
    have := (Bool.not_eq_true _).mpr hs
    simpa [storedAlready, ht, Option.not_isSome_iff_eq_none] using this
  simp [hnone]

/-- The loop body either leaves the store untouched or inserts exactly one
record, and the added count tracks that exactly. -/
theorem processItem_size (st : DBState) (item : VocabDBItem) :
    (processItem st item).1.words.length + (processItem st item).1.idioms.length
      = st.words.length + st.idioms.length + (processItem st item).2.1 := by
  unfold processItem
  repeat' split
  all_goals simp +arith [insertWord, insertIdiom]

/-- A record recognised by neither the word nor the idiom branch falls
through the `if`/`else if` chain without store change, count or warning. -/
theorem processItem_other (st : DBState) (item : VocabDBItem)
    (he : item.english ≠ "") (hty : item.type ≠ "")
    (hj : item.japanese ≠ "") (hee : item.example_en ≠ "") (hej : item.example_jp ≠ "")
    (hl : item.level ≠ "") (hc : item.category ≠ "")
    (hw : item.type ≠ "word") (hi : item.type ≠ "idiom") :
    processItem st item = (st, 0, 0) := by
  unfold processItem
  rw [if_neg (by simp [he, hty]), if_neg (by simp [hj, hee, hej, hl, hc]),
    if_neg (by simp [hw]), if_neg (by simp [hi])]

/-- Removing an item that the loop body treats as a no-op from anywhere in
the batch does not change the result of `addVocabularyItems`. -/
theorem addVocabularyItems_middle_noop (item : VocabDBItem)
    (hitem : ∀ s : DBState, processItem s item = (s, 0, 0)) (l1 l2 : List VocabDBItem) :
    ∀ st : DBState,
      addVocabularyItems (l1 ++ item :: l2) st = addVocabularyItems (l1 ++ l2) st := by
  induction l1 with
  | nil =>
    intro st
    simp [addVocabularyItems, hitem st]
  | cons x xs ih =>
    intro st
    simp only [List.cons_append, addVocabularyItems, List.append_eq]
    rw [ih]

/-- Total record count bookkeeping of the batch ingest: the store grows by
exactly the returned `addedCount`. -/
theorem addVocabularyItems_size (items : List VocabDBItem) (st : DBState) :
    (addVocabularyItems items st).1.words.length + (addVocabularyItems items st).1.idioms.length
      = st.words.length + st.idioms.length + (addVocabularyItems items st).2.1 := by
  induction items generalizing st with
  | nil => simp [addVocabularyItems]
  | cons item rest ih =>
    simp only [addVocabularyItems]
    have h1 := processItem_size st item
    have h2 := ih (processItem st item).1
    omega

/-- Inserting a word whose `english_pos` probe came back empty preserves the
uniqueness invariant. -/
theorem uniqueKeys_insertWord (st : DBState) (item : VocabDBItem)
    (h : UniqueKeys st) (hnone : findWordDup st.words item = none) :
    UniqueKeys (insertWord st item) := by
  obtain ⟨hw, hi⟩ := h
  refine ⟨?_, by simpa [insertIdiom, idiomKeys, insertWord] using hi⟩
  have hnot : (item.english, item.pos) ∉ wordKeys st := by
    intro hmem
    rw [wordKeys, List.mem_map] at hmem
    obtain ⟨r, hr, hkey⟩ := hmem
    have hne := List.find?_eq_none.mp hnone r hr
    apply hne
    have h1 : r.english = item.english := congrArg Prod.fst hkey
    have h2 : r.pos = item.pos := congrArg Prod.snd hkey
    simp [h1, h2]
  have hkeys : wordKeys (insertWord st item) = wordKeys st ++ [(item.english, item.pos)] := by
    simp [insertWord, wordKeys]
  rw [hkeys, List.nodup_append]
  refine ⟨hw, List.nodup_singleton _, ?_⟩
  intro k hk hk'
  simp only [List.mem_singleton] at hk'
  subst hk'
  exact hnot hk

/-- Inserting an idiom whose `english` probe came back empty preserves the
uniqueness invariant. -/
theorem uniqueKeys_insertIdiom (st : DBState) (item : VocabDBItem)
    (h : UniqueKeys st) (hnone : findIdiomDup st.idioms item = none) :
    UniqueKeys (insertIdiom st item) := by
  obtain ⟨hw, hi⟩ := h
  refine ⟨by simpa [insertIdiom, wordKeys] using hw, ?_⟩
  have hnot : item.english ∉ idiomKeys st := by
    intro hmem
    rw [idiomKeys, List.mem_map] at hmem
    obtain ⟨r, hr, hkey⟩ := hmem
    have hne := List.find?_eq_none.mp hnone r hr
    apply hne
    simp [hkey]
  have hkeys : idiomKeys (insertIdiom st item) = idiomKeys st ++ [item.english] := by
    simp [insertIdiom, idiomKeys]
  rw [hkeys, List.nodup_append]
  refine ⟨hi, List.nodup_singleton _, ?_⟩
  intro k hk hk'
  simp only [List.mem_singleton] at hk'
  subst hk'
  exact hnot hk

/-- The loop body preserves the uniqueness invariant. -/
theorem processItem_uniqueKeys (st : DBState) (item : VocabDBItem)
    (h : UniqueKeys st) : UniqueKeys (processItem st item).1 := by
  unfold processItem
  repeat' split
  all_goals first
    | exact h
    | (rename_i heq; exact uniqueKeys_insertWord st item h heq)
    | (rename_i heq; exact uniqueKeys_insertIdiom st item h heq)

/-- One `addVocabularyItems` call preserves the uniqueness invariant. -/
theorem addVocabularyItems_uniqueKeys (items : List VocabDBItem) (st : DBState)
    (h : UniqueKeys st) : UniqueKeys (addVocabularyItems items st).1 := by
  induction items generalizing st with
  | nil => simpa [addVocabularyItems] using h
  | cons item rest ih =>
    simp only [addVocabularyItems]
    exact ih _ (processItem_uniqueKeys st item h)

/-! ### Sample records used by the concrete witnesses -/

/-- Sample valid word record. -/
def sampleWord : VocabDBItem :=
  { id := none, english := "run", japanese := "走る", pos := some "Verb",
    example_en := "I run every day.", example_jp := "毎日走ります。",
    level := "Beginner (TOEIC 400-600)", category := "Business",
    type := "word", frequencyLevel := none }

/-- Sample valid word record with the same english but a different part of
speech. -/
def sampleWordNoun : VocabDBItem :=
  { sampleWord with pos := some "Noun", japanese := "走ること" }

/-- Sample valid idiom record. -/
def sampleIdiom : VocabDBItem :=
  { id := none, english := "kick off", japanese := "開始する", pos := none,
    example_en := "We kick off at nine.", example_jp := "9時に開始します。",
    level := "Beginner (TOEIC 400-600)", category := "Business",
    type := "idiom", frequencyLevel := none }

/-- Sample record whose `type` is neither `word` nor `idiom` but whose other
fields are all present. -/
def samplePhrase : VocabDBItem :=
  { sampleIdiom with english := "as of", japanese := "時点で", type := "phrase" }

/-- Sample record missing its `english` field. -/
def sampleBad : VocabDBItem :=
  { sampleWord with english := "" }

/-! ### Claim theorems -/

/-- C1: starting from any store satisfying the uniqueness invariant (in
particular from the empty store, so from every reachable state), any sequence
of `addVocabularyItems` calls preserves it: at most one word record per
(english, pos) key and at most one idiom record per english key persist,
because a candidate whose key is already present is skipped rather than
inserted. -/
theorem claim_C1_uniqueness_invariant :
    UniqueKeys emptyDB
    ∧ ∀ (batches : List (List VocabDBItem)) (st : DBState),
        UniqueKeys st → UniqueKeys (addBatches batches st) := by
  refine ⟨by decide, ?_⟩
  intro batches
  induction batches with
  | nil => exact fun st h => by simpa [addBatches] using h
  | cons b bs ih =>
    intro st h
    have h1 := addVocabularyItems_uniqueKeys b st h
    simpa [addBatches] using ih _ h1

/-- Witness for C1 at a concrete input: ingesting a batch containing the same
word twice, starting from the empty store, keeps the invariant. -/
theorem claim_C1_witness :
    UniqueKeys emptyDB ∧ UniqueKeys (addBatches [[sampleWord, sampleWord]] emptyDB) :=
  ⟨claim_C1_uniqueness_invariant.1,
   claim_C1_uniqueness_invariant.2 [[sampleWord, sampleWord]] emptyDB (by decide)⟩

/-- C7: `addVocabularyItems` returns exactly the number of records it
actually inserted: the store grows by exactly the returned count; a record
failing a validation check is skipped (with a warning) without being counted
and without touching the store; a valid record whose uniqueness key is
already present is skipped without being counted; the batch continues in
both cases (the remaining records are still processed, per the recursion). -/
theorem claim_C7_addedCount_exact :
    (∀ (items : List VocabDBItem) (st : DBState),
        (addVocabularyItems items st).1.words.length + (addVocabularyItems items st).1.idioms.length
          = st.words.length + st.idioms.length + (addVocabularyItems items st).2.1)
    ∧ (∀ (st : DBState) (item : VocabDBItem), invalidItem item = true →
        processItem st item = (st, 0, 1))
    ∧ (∀ (st : DBState) (item : VocabDBItem), validItem item = true →
        storedAlready st item = true → processItem st item = (st, 0, 0)) :=
  ⟨addVocabularyItems_size, processItem_invalid, processItem_dup⟩

/-- Witness for C7 at concrete inputs: a batch of one valid word grows the
empty store by its count; a record with empty english is skipped with a
warning; re-adding a stored word is skipped silently. -/
theorem claim_C7_witness :
    ((addVocabularyItems [sampleWord] emptyDB).1.words.length
        + (addVocabularyItems [sampleWord] emptyDB).1.idioms.length
      = emptyDB.words.length + emptyDB.idioms.length + (addVocabularyItems [sampleWord] emptyDB).2.1)
    ∧ processItem emptyDB sampleBad = (emptyDB, 0, 1)
    ∧ processItem (addVocabularyItems [sampleWord] emptyDB).1 sampleWord
        = ((addVocabularyItems [sampleWord] emptyDB).1, 0, 0) :=
  ⟨claim_C7_addedCount_exact.1 [sampleWord] emptyDB,
   claim_C7_addedCount_exact.2.1 emptyDB sampleBad (by decide),
   claim_C7_addedCount_exact.2.2 (addVocabularyItems [sampleWord] emptyDB).1 sampleWord
     (by decide) (by decide)⟩

/-- C10: a record whose english, type and core data fields are all present
but whose type is neither `word` nor `idiom` is skipped silently by
`addVocabularyItems`: nothing is inserted for it, the added count and the
warning count are not incremented, and the rest of the batch is processed as
if the record were absent. -/
theorem claim_C10_unknown_type_silent_skip (st : DBState) (l1 l2 : List VocabDBItem)
    (item : VocabDBItem)
    (he : item.english ≠ "") (hty : item.type ≠ "")
    (hj : item.japanese ≠ "") (hee : item.example_en ≠ "") (hej : item.example_jp ≠ "")
    (hl : item.level ≠ "") (hc : item.category ≠ "")
    (hw : item.type ≠ "word") (hi : item.type ≠ "idiom") :
    processItem st item = (st, 0, 0)
    ∧ addVocabularyItems (l1 ++ item :: l2) st = addVocabularyItems (l1 ++ l2) st := by
  have hstep : ∀ s : DBState, processItem s item = (s, 0, 0) :=
    fun s => processItem_other s item he hty hj hee hej hl hc hw hi
  exact ⟨hstep st, addVocabularyItems_middle_noop item hstep l1 l2 st⟩

/-- Witness for C10 at a concrete input: a `phrase`-typed record between a
word and an idiom is skipped silently and contributes nothing. -/
theorem claim_C10_witness :
    processItem emptyDB samplePhrase = (emptyDB, 0, 0)
    ∧ addVocabularyItems ([sampleWord] ++ samplePhrase :: [sampleIdiom]) emptyDB
        = addVocabularyItems ([sampleWord] ++ [sampleIdiom]) emptyDB :=
  claim_C10_unknown_type_silent_skip emptyDB [sampleWord] [sampleIdiom] samplePhrase
    (by decide) (by decide) (by decide) (by decide) (by decide)
    (by decide) (by decide) (by decide) (by decide)

/-! ### Freshness and growth lemmas for the dedup-idempotence claim -/

/-- The uniqueness key a candidate record is deduplicated on: which
collection it is routed to, its english, and (for words only) its part of
speech. -/
def itemKey (it : VocabDBItem) : Bool × String × Option String :=
  (it.type == "word", it.english, if it.type == "word" then it.pos else none)

/-- One store state extends another by appending records only. -/
def GrowsTo (st st' : DBState) : Prop :=
  (∃ l, st'.words = st.words ++ l) ∧ (∃ l, st'.idioms = st.idioms ++ l)

theorem growsTo_refl (st : DBState) : GrowsTo st st :=
  ⟨⟨[], by simp⟩, ⟨[], by simp⟩⟩

theorem growsTo_trans {s1 s2 s3 : DBState} (h1 : GrowsTo s1 s2) (h2 : GrowsTo s2 s3) :
    GrowsTo s1 s3 := by
  obtain ⟨⟨w1, hw1⟩, ⟨i1, hi1⟩⟩ := h1
  obtain ⟨⟨w2, hw2⟩, ⟨i2, hi2⟩⟩ := h2
  exact ⟨⟨w1 ++ w2, by simp [hw2, hw1]⟩, ⟨i1 ++ i2, by simp [hi2, hi1]⟩⟩

/-- The loop body only ever appends records. -/
theorem processItem_growsTo (st : DBState) (item : VocabDBItem) :
    GrowsTo st (processItem st item).1 := by
  unfold processItem
  repeat' split
  all_goals first
    | exact growsTo_refl st
    | exact ⟨⟨_, rfl⟩, ⟨[], by simp [insertWord]⟩⟩
    | exact ⟨⟨[], by simp [insertIdiom]⟩, ⟨_, rfl⟩⟩

/-- A whole ingest call only ever appends records. -/
theorem addVocabularyItems_growsTo (items : List VocabDBItem) (st : DBState) :
    GrowsTo st (addVocabularyItems items st).1 := by
  induction items generalizing st with
  | nil => exact growsTo_refl st
  | cons item rest ih =>
    simp only [addVocabularyItems]
    exact growsTo_trans (processItem_growsTo st item) (ih (processItem st item).1)

/-- A record already found by its uniqueness probe is still found after the
store grows. -/
theorem storedAlready_mono {st st' : DBState} (it : VocabDBItem)
    (hg : GrowsTo st st') (h : storedAlready st it = true) :
    storedAlready st' it = true := by
  obtain ⟨⟨w, hw⟩, ⟨i, hi⟩⟩ := hg
  unfold storedAlready at *
  split at h <;> rename_i hty
  · rw [if_pos hty, hw]
    unfold findWordDup at *
    rw [List.find?_append]
    cases hfind : List.find? (fun r => r.english == it.english && r.pos == it.pos) st.words with
    | none => rw [hfind] at h; simp at h
    | some v => simp [Option.or]
  · rw [if_neg hty, hi]
    unfold findIdiomDup at *
    rw [List.find?_append]
    cases hfind : List.find? (fun r => r.english == it.english) st.idioms with
    | none => rw [hfind] at h; simp at h
    | some v => simp [Option.or]

/-- After inserting a word, its own uniqueness probe succeeds. -/
theorem storedAlready_insertWord_self (st : DBState) (x : VocabDBItem)
    (ht : x.type = "word") : storedAlready (insertWord st x) x = true := by
  unfold storedAlready findWordDup insertWord
  rw [if_pos (by simp [ht])]
  simp [List.find?_append]

/-- After inserting an idiom, its own uniqueness probe succeeds. -/
theorem storedAlready_insertIdiom_self (st : DBState) (x : VocabDBItem)
    (ht : x.type = "idiom") : storedAlready (insertIdiom st x) x = true := by
  unfold storedAlready findIdiomDup insertIdiom
  rw [if_neg (by simp [ht])]
  simp [List.find?_append]

/-- Inserting a word does not make the probe of a record with a different
uniqueness key succeed. -/
theorem storedAlready_insertWord_other (st : DBState) (x it : VocabDBItem)
    (hx : x.type = "word") (hk : itemKey it ≠ itemKey x)
    (h : storedAlready st it = false) :
    storedAlready (insertWord st x) it = false := by
  unfold storedAlready at *
  by_cases hty : (it.type == "word") = true
  · rw [if_pos hty] at h ⊢
    unfold findWordDup at *
    simp only [insertWord, List.find?_append, h, Option.none_or]
    simp only [List.find?_cons, List.find?_nil]
    split
    · rename_i hpred
      exfalso
      apply hk
      simp only [Bool.and_eq_true, beq_iff_eq] at hpred
      simp [itemKey, hty, hx, hpred.1, hpred.2]
    · simpa [Option.or_none] using h
  · rw [if_neg hty] at h ⊢
    simpa [insertWord] using h

/-- Inserting an idiom does not make the probe of a record with a different
uniqueness key succeed. -/
theorem storedAlready_insertIdiom_other (st : DBState) (x it : VocabDBItem)
    (hx : x.type = "idiom") (hk : itemKey it ≠ itemKey x)
    (h : storedAlready st it = false) :
    storedAlready (insertIdiom st x) it = false := by
  unfold storedAlready at *
  by_cases hty : (it.type == "word") = true
  · rw [if_pos hty] at h ⊢
    simpa [insertIdiom, findWordDup] using h
  · rw [if_neg hty] at h ⊢
    unfold findIdiomDup at *
    simp only [insertIdiom, List.find?_append, h, Option.none_or]
    simp only [List.find?_cons, List.find?_nil]
    split
    · rename_i hpred
      exfalso
      apply hk
      simp only [beq_iff_eq] at hpred
      simp only [itemKey, hty, hx]
      simp [hpred]
    · simpa [Option.or_none] using h

/-- Ingesting a batch of valid records with pairwise-distinct uniqueness keys,
none of which is already stored, inserts all of them: the added count is the
batch length, no warnings are logged, and afterwards every batch record's
uniqueness probe succeeds. -/
theorem addVocabularyItems_fresh_batch (items : List VocabDBItem) :
    ∀ st : DBState,
      (∀ it ∈ items, validItem it = true) →
      (items.map itemKey).Nodup →
      (∀ it ∈ items, storedAlready st it = false) →
      (addVocabularyItems items st).2.1 = items.length
      ∧ (addVocabularyItems items st).2.2 = 0
      ∧ ∀ it ∈ items, storedAlready (addVocabularyItems items st).1 it = true := by
  induction items with
  | nil => intro st _ _ _; simp [addVocabularyItems]
  | cons x rest ih =>
    intro st hval hnd hfresh
    have hvx : validItem x = true := hval x (List.mem_cons_self x rest)
    have hfx : storedAlready st x = false := hfresh x (List.mem_cons_self x rest)
    simp only [List.map_cons, List.nodup_cons] at hnd
    have hkx : itemKey x ∉ rest.map itemKey := hnd.1
    have hkne : ∀ it ∈ rest, itemKey it ≠ itemKey x := by
      intro it hit heq
      exact hkx (heq ▸ List.mem_map_of_mem itemKey hit)
    obtain ⟨_, _, _, _, _, _, _, hwi, _⟩ := (validItem_iff x).mp hvx
    rcases hwi with hw | hi
    · -- word branch
      have hp := processItem_new_word st x hvx hw hfx
      have hfresh' : ∀ it ∈ rest, storedAlready (insertWord st x) it = false :=
        fun it hit => storedAlready_insertWord_other st x it hw (hkne it hit)
          (hfresh it (List.mem_cons_of_mem x hit))
      have hih := ih (insertWord st x) (fun it hit => hval it (List.mem_cons_of_mem x hit))
        hnd.2 hfresh'
      refine ⟨?_, ?_, ?_⟩
      · simp only [addVocabularyItems, hp]
        have := hih.1
        simp only [List.length_cons]
        omega
      · simp only [addVocabularyItems, hp]
        simpa using hih.2.1
      · intro it hit
        rcases List.mem_cons.mp hit with rfl | hit'
        · have hself := storedAlready_insertWord_self st it hw
          have hg : GrowsTo (insertWord st it) (addVocabularyItems (it :: rest) st).1 := by
            simp only [addVocabularyItems, hp]
            exact addVocabularyItems_growsTo rest (insertWord st it)
          exact storedAlready_mono it hg hself
        · have := hih.2.2 it hit'
          simpa only [addVocabularyItems, hp] using this
    · -- idiom branch
      have hp := processItem_new_idiom st x hvx hi hfx
      have hfresh' : ∀ it ∈ rest, storedAlready (insertIdiom st x) it = false :=
        fun it hit => storedAlready_insertIdiom_other st x it hi (hkne it hit)
          (hfresh it (List.mem_cons_of_mem x hit))
      have hih := ih (insertIdiom st x) (fun it hit => hval it (List.mem_cons_of_mem x hit))
        hnd.2 hfresh'
      refine ⟨?_, ?_, ?_⟩
      · simp only [addVocabularyItems, hp]
        have := hih.1
        simp only [List.length_cons]
        omega
      · simp only [addVocabularyItems, hp]
        simpa using hih.2.1
      · intro it hit
        rcases List.mem_cons.mp hit with rfl | hit'
        · have hself := storedAlready_insertIdiom_self st it hi
          have hg : GrowsTo (insertIdiom st it) (addVocabularyItems (it :: rest) st).1 := by
            simp only [addVocabularyItems, hp]
            exact addVocabularyItems_growsTo rest (insertIdiom st it)
          exact storedAlready_mono it hg hself
        · have := hih.2.2 it hit'
          simpa only [addVocabularyItems, hp] using this

/-- Ingesting a batch of valid records that are all already stored is a
complete no-op: state unchanged, zero added, zero warnings. -/
theorem addVocabularyItems_all_stored (items : List VocabDBItem) :
    ∀ st : DBState,
      (∀ it ∈ items, validItem it = true ∧ storedAlready st it = true) →
      addVocabularyItems items st = (st, 0, 0) := by
  induction items with
  | nil => intro st _; rfl
  | cons x rest ih =>
    intro st h
    have hx := h x (List.mem_cons_self x rest)
    have hdup := processItem_dup st x hx.1 hx.2
    simp only [addVocabularyItems, hdup]
    rw [ih st (fun it hit => h it (List.mem_cons_of_mem x hit))]
    simp

/-- C2: for a list of valid records with pairwise-distinct uniqueness keys,
none already stored, `addVocabularyItems` returns addedCount = list length;
calling it again immediately with the identical list returns addedCount = 0
and leaves the store (both collections and both key generators) unchanged. -/
theorem claim_C2_dedup_idempotence (items : List VocabDBItem) (st : DBState)
    (hval : ∀ it ∈ items, validItem it = true)
    (hnd : (items.map itemKey).Nodup)
    (hfresh : ∀ it ∈ items, storedAlready st it = false) :
    (addVocabularyItems items st).2.1 = items.length
    ∧ addVocabularyItems items (addVocabularyItems items st).1
        = ((addVocabularyItems items st).1, 0, 0) := by
  have h1 := addVocabularyItems_fresh_batch items st hval hnd hfresh
  refine ⟨h1.1, ?_⟩
  exact addVocabularyItems_all_stored items (addVocabularyItems items st).1
    (fun it hit => ⟨hval it hit, h1.2.2 it hit⟩)

/-- Witness for C2 at a concrete input: two `run` words with distinct parts
of speech plus one idiom all insert on the first call (count 3) and the
identical second call is a no-op with count 0. -/
theorem claim_C2_witness :
    (addVocabularyItems [sampleWord, sampleWordNoun, sampleIdiom] emptyDB).2.1 = 3
    ∧ addVocabularyItems [sampleWord, sampleWordNoun, sampleIdiom]
        (addVocabularyItems [sampleWord, sampleWordNoun, sampleIdiom] emptyDB).1
      = ((addVocabularyItems [sampleWord, sampleWordNoun, sampleIdiom] emptyDB).1, 0, 0) := by
  have h := claim_C2_dedup_idempotence [sampleWord, sampleWordNoun, sampleIdiom] emptyDB
    (by decide) (by decide) (by decide)
  simpa using h

/-! ### String and sorting primitives used by the query engine -/

/-- Lowercasing as `String.prototype.toLowerCase`, character by character. -/
def jsToLower (s : String) : String := String.mk (s.data.map Char.toLower)

/-- Prefix test on character lists (helper for the substring test). -/
def charsStartsWith : List Char → List Char → Bool
  | _, [] => true
  | [], _ :: _ => false
  | a :: as, b :: bs => a == b && charsStartsWith as bs

/-- Substring test on character lists (helper for `includes`). -/
def charsIncludes (needle : List Char) : List Char → Bool
  | [] => needle == []
  | c :: rest => charsStartsWith (c :: rest) needle || charsIncludes needle rest

/-- Substring containment as `String.prototype.includes`. -/
def strIncludes (s sub : String) : Bool := charsIncludes sub.data s.data

/-- Code-point comparison of character lists (model of the string ordering
`localeCompare` induces; locale subtleties are abstracted to code-point
order). -/
def charsLt : List Char → List Char → Bool
  | [], [] => false
  | [], _ :: _ => true
  | _ :: _, [] => false
  | a :: as, b :: bs =>
    if a.val < b.val then true
    else if b.val < a.val then false
    else charsLt as bs

/-- Comparator `(a, b) => a.localeCompare(b) <= 0`, i.e. a sorts not after
b. -/
def localeCompareLe (a b : String) : Bool := !(charsLt b.data a.data)

/-- Stable insertion of one element into a list using a boolean
not-after comparator. -/
def insertLe (le : α → α → Bool) (x : α) : List α → List α
  | [] => [x]
  | y :: ys => if le x y then x :: y :: ys else y :: insertLe le x ys

/-- Stable comparator sort (model of the stable `Array.prototype.sort` with a
consistent comparator; `le a b` means a does not sort after b). -/
def sortLe (le : α → α → Bool) : List α → List α
  | [] => []
  | x :: xs => insertLe le x (sortLe le xs)

theorem insertLe_perm (le : α → α → Bool) (x : α) (l : List α) :
    (insertLe le x l).Perm (x :: l) := by
  induction l with
  | nil => exact List.Perm.refl _
  | cons y ys ih =>
    simp only [insertLe]
    split
    · exact List.Perm.refl _
    · exact (ih.cons y).trans (List.Perm.swap x y ys)

theorem sortLe_perm (le : α → α → Bool) (l : List α) : (sortLe le l).Perm l := by
  induction l with
  | nil => exact List.Perm.refl _
  | cons x xs ih => exact (insertLe_perm le x (sortLe le xs)).trans (ih.cons x)

theorem sortLe_length (le : α → α → Bool) (l : List α) :
    (sortLe le l).length = l.length :=
  (sortLe_perm le l).length_eq

/-- In-place swap of the array entries at positions i and j
(`[a[i], a[j]] = [a[j], a[i]]`); out-of-range positions cannot occur in the
Fisher-Yates loop but are modelled as a no-op. -/
def listSwap (l : List α) (i j : Nat) : List α :=
  match l[i]?, l[j]? with
  | some a, some b => (l.set i b).set j a
  | _, _ => l

/-- The Fisher-Yates loop of `getVocabulary` and
`getAllVocabularyForLevelAndCategory`, from current index k down to 1; the
head draw stands for `Math.floor(Math.random() * (k + 1))`, reduced modulo
k + 1 so that an arbitrary draw list is interpreted in range. -/
def fisherYatesAux : List Nat → Nat → List α → List α
  | _, 0, l => l
  | ds, k + 1, l => fisherYatesAux ds.tail k (listSwap l (k + 1) (ds.headD 0 % (k + 2)))

/-- Fisher-Yates shuffle of a whole list (loop from `length - 1` down to 1). -/
def fisherYates (ds : List Nat) (l : List α) : List α :=
  fisherYatesAux ds (l.length - 1) l

theorem listSwap_mem {l : List α} {i j : Nat} {a : α} (h : a ∈ listSwap l i j) : a ∈ l := by
  unfold listSwap at h
  split at h
  · rename_i x y hx hy
    rcases List.mem_or_eq_of_mem_set h with h' | rfl
    · rcases List.mem_or_eq_of_mem_set h' with h'' | rfl
      · exact h''
      · exact List.getElem?_mem hy
    · exact List.getElem?_mem hx
  · exact h

theorem fisherYatesAux_mem {k : Nat} :
    ∀ {ds : List Nat} {l : List α} {a : α}, a ∈ fisherYatesAux ds k l → a ∈ l := by
  induction k with
  | zero => intro ds l a h; exact h
  | succ k ih =>
    intro ds l a h
    exact listSwap_mem (ih h)

theorem fisherYates_mem {ds : List Nat} {l : List α} {a : α}
    (h : a ∈ fisherYates ds l) : a ∈ l :=
  fisherYatesAux_mem h

/-! ### The query engine -/

/-- Fetch through the non-unique `level_category` index:
`getAllFromIndex(store, 'level_category', IDBKeyRange.only([level, category]))`. -/
def levelCategoryIndex (coll : List VocabDBItem) (level category : String) :
    List VocabDBItem :=
  coll.filter (fun r => r.level == level && r.category == category)

/-- Stage 1 of the shared query pipeline of `getVocabulary` (db.ts lines
160-200) and `getAllVocabularyForLevelAndCategory` (db.ts lines 203-242),
whose bodies are textually identical up to the final truncation: the union
`allItems` of the selected collections restricted by the (level, category)
index. -/
def vocabUnion (st : DBState) (level category vocabType : String) : List VocabDBItem :=
  (if vocabType == "word" || vocabType == "all" then
    levelCategoryIndex st.words level category
   else [])
  ++ (if vocabType == "idiom" || vocabType == "all" then
    levelCategoryIndex st.idioms level category
   else [])

/-- Stage 2: the in-memory pos filter (`if (posFilter !== 'all')`). -/
def vocabPosFiltered (st : DBState) (level category vocabType posFilter : String) :
    List VocabDBItem :=
  if posFilter != "all" then
    (vocabUnion st level category vocabType).filter (fun r => r.pos == some posFilter)
  else vocabUnion st level category vocabType

/-- Stage 3: the in-memory frequency filter (`if (frequencyLevel)`, with the
JavaScript falsiness of `undefined` and `0`). -/
def vocabFreqFiltered (st : DBState) (level category vocabType posFilter : String)
    (frequencyLevel : Option Nat) : List VocabDBItem :=
  match frequencyLevel with
  | some fl =>
    if fl != 0 then
      (vocabPosFiltered st level category vocabType posFilter).filter
        (fun r => r.frequencyLevel == some fl)
    else vocabPosFiltered st level category vocabType posFilter
  | none => vocabPosFiltered st level category vocabType posFilter

/-- Stage 4: alphabetical sort (by `localeCompare` on english) or
Fisher-Yates shuffle, completing the shared pipeline. -/
def vocabQuery (st : DBState) (level category vocabType posFilter sortOrder : String)
    (frequencyLevel : Option Nat) (ds : List Nat) : List VocabDBItem :=
  if sortOrder == "Alphabetical" then
    sortLe (fun a b => localeCompareLe a.english b.english)
      (vocabFreqFiltered st level category vocabType posFilter frequencyLevel)
  else
    fisherYates ds (vocabFreqFiltered st level category vocabType posFilter frequencyLevel)

/-- The `getVocabulary` query (db.ts lines 160-200): the shared pipeline
truncated to `count` by `slice(0, count)`. -/
def getVocabulary (st : DBState) (level category vocabType posFilter sortOrder : String)
    (count : Nat) (frequencyLevel : Option Nat) (ds : List Nat) : List VocabDBItem :=
  (vocabQuery st level category vocabType posFilter sortOrder frequencyLevel ds).take count

/-- The `getAllVocabularyForLevelAndCategory` query (db.ts lines 203-242):
the shared pipeline, untruncated. -/
def getAllVocabularyForLevelAndCategory (st : DBState)
    (level category vocabType posFilter sortOrder : String)
    (frequencyLevel : Option Nat) (ds : List Nat) : List VocabDBItem :=
  vocabQuery st level category vocabType posFilter sortOrder frequencyLevel ds

/-! ### Membership lemmas for the shared query pipeline -/

theorem vocabUnion_mem (st : DBState) (level category vocabType : String)
    {r : VocabDBItem} (hr : r ∈ vocabUnion st level category vocabType) :
    r ∈ st.words ∨ r ∈ st.idioms := by
  unfold vocabUnion at hr
  rcases List.mem_append.mp hr with h | h
  · split at h
    · exact Or.inl (List.mem_of_mem_filter h)
    · simp at h
  · split at h
    · exact Or.inr (List.mem_of_mem_filter h)
    · simp at h

theorem vocabPosFiltered_mem_words (st : DBState)
    (level category vocabType posFilter : String)
    (hinv : ∀ r ∈ st.idioms, r.pos = none) (hpf : posFilter ≠ "all")
    {r : VocabDBItem} (hr : r ∈ vocabPosFiltered st level category vocabType posFilter) :
    r ∈ st.words := by
  unfold vocabPosFiltered at hr
  rw [if_pos (by simpa using hpf)] at hr
  obtain ⟨hmem, hp⟩ := List.mem_filter.mp hr
  rcases vocabUnion_mem st level category vocabType hmem with h | h
  · exact h
  · exfalso
    have := hinv r h
    rw [this] at hp
    simp at hp

theorem vocabFreqFiltered_mem_words (st : DBState)
    (level category vocabType posFilter : String) (frequencyLevel : Option Nat)
    (hinv : ∀ r ∈ st.idioms, r.pos = none) (hpf : posFilter ≠ "all")
    {r : VocabDBItem}
    (hr : r ∈ vocabFreqFiltered st level category vocabType posFilter frequencyLevel) :
    r ∈ st.words := by
  unfold vocabFreqFiltered at hr
  have hr' : r ∈ vocabPosFiltered st level category vocabType posFilter := by
    rcases frequencyLevel with _ | fl
    · exact hr
    · dsimp only at hr
      split at hr
      · exact List.mem_of_mem_filter hr
      · exact hr
  exact vocabPosFiltered_mem_words st level category vocabType posFilter hinv hpf hr'

theorem vocabQuery_mem_words (st : DBState)
    (level category vocabType posFilter sortOrder : String)
    (frequencyLevel : Option Nat) (ds : List Nat)
    (hinv : ∀ r ∈ st.idioms, r.pos = none) (hpf : posFilter ≠ "all")
    {r : VocabDBItem}
    (hr : r ∈ vocabQuery st level category vocabType posFilter sortOrder frequencyLevel ds) :
    r ∈ st.words := by
  unfold vocabQuery at hr
  have hr' : r ∈ vocabFreqFiltered st level category vocabType posFilter frequencyLevel := by
    split at hr
    · exact ((sortLe_perm _ _).mem_iff).mp hr
    · exact fisherYates_mem hr
  exact vocabFreqFiltered_mem_words st level category vocabType posFilter frequencyLevel
    hinv hpf hr'

/-- With `vocabType = "idiom"` and a concrete pos filter, the pipeline is
empty as soon as every stored idiom has `pos = null`. -/
theorem vocabQuery_idiom_posFilter_empty (st : DBState)
    (level category posFilter sortOrder : String)
    (frequencyLevel : Option Nat) (ds : List Nat)
    (hinv : ∀ r ∈ st.idioms, r.pos = none) (hpf : posFilter ≠ "all") :
    vocabQuery st level category "idiom" posFilter sortOrder frequencyLevel ds = [] := by
  have h2 : vocabPosFiltered st level category "idiom" posFilter = [] := by
    unfold vocabPosFiltered
    rw [if_pos (by simpa using hpf)]
    rw [List.filter_eq_nil_iff]
    intro r hr
    unfold vocabUnion at hr
    rcases List.mem_append.mp hr with h' | h'
    · rw [if_neg (by decide)] at h'
      simp at h'
    · rw [if_pos (by decide)] at h'
      have := hinv r (List.mem_of_mem_filter h')
      simp [this]
  have h3 : vocabFreqFiltered st level category "idiom" posFilter frequencyLevel = [] := by
    unfold vocabFreqFiltered
    rcases frequencyLevel with _ | fl
    · exact h2
    · dsimp only
      split
      · rw [h2]; rfl
      · exact h2
  unfold vocabQuery
  rw [h3]
  split
  · rfl
  · rfl

/-- The loop body keeps every stored idiom's pos equal to null. -/
theorem processItem_idiomPos (st : DBState) (item : VocabDBItem)
    (hinv : ∀ r ∈ st.idioms, r.pos = none) :
    ∀ r ∈ (processItem st item).1.idioms, r.pos = none := by
  unfold processItem
  repeat' split
  all_goals first
    | exact hinv
    | (intro r hr
       simp only [insertIdiom, List.mem_append, List.mem_singleton] at hr
       rcases hr with h | rfl
       · exact hinv r h
       · rfl)

/-- One ingest call keeps every stored idiom's pos equal to null. -/
theorem addVocabularyItems_idiomPos (items : List VocabDBItem) (st : DBState)
    (hinv : ∀ r ∈ st.idioms, r.pos = none) :
    ∀ r ∈ (addVocabularyItems items st).1.idioms, r.pos = none := by
  induction items generalizing st with
  | nil => exact hinv
  | cons item rest ih =>
    simp only [addVocabularyItems]
    exact ih (processItem st item).1 (processItem_idiomPos st item hinv)

/-- C9: whenever a concrete pos filter is given (posFilter different from
`all`), no idiom record ever appears in the result of `getVocabulary` or
`getAllVocabularyForLevelAndCategory` — every returned record belongs to the
`words` store — because idioms are stored with `pos = null` (an invariant the
ingest path preserves, last conjunct) and the pos filter compares `pos` with
the concrete part of speech; in particular, with `vocabType = "idiom"` both
queries return the empty list. -/
theorem claim_C9_pos_filter_excludes_idioms (st : DBState)
    (level category vocabType posFilter sortOrder : String) (count : Nat)
    (frequencyLevel : Option Nat) (ds : List Nat)
    (hinv : ∀ r ∈ st.idioms, r.pos = none) (hpf : posFilter ≠ "all") :
    (∀ r ∈ getVocabulary st level category vocabType posFilter sortOrder count frequencyLevel ds,
        r ∈ st.words)
    ∧ (∀ r ∈ getAllVocabularyForLevelAndCategory st level category vocabType posFilter
          sortOrder frequencyLevel ds, r ∈ st.words)
    ∧ (vocabType = "idiom" →
        getVocabulary st level category vocabType posFilter sortOrder count frequencyLevel ds = []
        ∧ getAllVocabularyForLevelAndCategory st level category vocabType posFilter
            sortOrder frequencyLevel ds = [])
    ∧ (∀ (items : List VocabDBItem) (st0 : DBState), (∀ r ∈ st0.idioms, r.pos = none) →
        ∀ r ∈ (addVocabularyItems items st0).1.idioms, r.pos = none) := by
  refine ⟨?_, ?_, ?_, fun items st0 h => addVocabularyItems_idiomPos items st0 h⟩
  · intro r hr
    exact vocabQuery_mem_words st level category vocabType posFilter sortOrder frequencyLevel ds
      hinv hpf (List.mem_of_mem_take hr)
  · intro r hr
    exact vocabQuery_mem_words st level category vocabType posFilter sortOrder frequencyLevel ds
      hinv hpf hr
  · rintro rfl
    have h := vocabQuery_idiom_posFilter_empty st level category posFilter sortOrder
      frequencyLevel ds hinv hpf
    constructor
    · unfold getVocabulary
      simp [h]
    · unfold getAllVocabularyForLevelAndCategory
      exact h

/-- Witness for C9 at a concrete input: with one stored word and one stored
idiom, querying idioms with a `Verb` pos filter returns nothing, and the
ingest of an idiom keeps its pos null. -/
theorem claim_C9_witness :
    (∀ r ∈ getVocabulary (addVocabularyItems [sampleWord, sampleIdiom] emptyDB).1
        "Beginner (TOEIC 400-600)" "Business" "idiom" "Verb" "Random" 10 none [0],
        r ∈ (addVocabularyItems [sampleWord, sampleIdiom] emptyDB).1.words)
    ∧ getVocabulary (addVocabularyItems [sampleWord, sampleIdiom] emptyDB).1
        "Beginner (TOEIC 400-600)" "Business" "idiom" "Verb" "Random" 10 none [0] = [] := by
  have h := claim_C9_pos_filter_excludes_idioms
    (addVocabularyItems [sampleWord, sampleIdiom] emptyDB).1
    "Beginner (TOEIC 400-600)" "Business" "idiom" "Verb" "Random" 10 none [0]
    (by decide) (by decide)
  exact ⟨h.1, (h.2.2.1 rfl).1⟩

/-! ### The paginated catalog query -/

/-- The optional filter set of `getPaginatedVocabulary` (db.ts lines 275-286). -/
structure VocabFilters where
  level : Option String
  category : Option String
  type : Option String
  search : Option String
  sortOrder : Option String
  frequencyLevel : Option Nat
deriving DecidableEq, Repr

/-- JavaScript truthiness of an optional string (absent and empty are falsy). -/
def truthyS : Option String → Bool
  | none => false
  | some s => s != ""

/-- JavaScript truthiness of an optional number (absent and 0 are falsy). -/
def truthyN : Option Nat → Bool
  | none => false
  | some n => n != 0

/-- The `matches` predicate of `getPaginatedVocabulary` (db.ts lines
288-297): each provided filter must hold, where the search text is matched
case-insensitively as a substring of english or japanese. -/
def matchesFilters (f : VocabFilters) (item : VocabDBItem) : Bool :=
  let lowerCaseSearch := f.search.map jsToLower
  if truthyS f.level && item.level != f.level.getD "" then false
  else if truthyS f.category && item.category != f.category.getD "" then false
  else if truthyS f.type && item.type != f.type.getD "" then false
  else if truthyN f.frequencyLevel && item.frequencyLevel != f.frequencyLevel then false
  else if truthyS lowerCaseSearch
      && !(strIncludes (jsToLower item.english) (lowerCaseSearch.getD ""))
      && !(strIncludes (jsToLower item.japanese) (lowerCaseSearch.getD "")) then false
  else true

/-- The collection scan of `getPaginatedVocabulary` (db.ts lines 299-307):
words unless the type filter is exactly `idiom`, idioms unless it is exactly
`word`, each filtered by the `matches` predicate. -/
def allMatchingItems (f : VocabFilters) (st : DBState) : List VocabDBItem :=
  (if f.type != some "idiom" then st.words.filter (matchesFilters f) else [])
  ++ (if f.type != some "word" then st.idioms.filter (matchesFilters f) else [])

/-- The sort of `getPaginatedVocabulary` (db.ts lines 309-313): alphabetical
by english via `localeCompare`, or ascending `(a.id ?? 0) - (b.id ?? 0)`. -/
def filteredSorted (f : VocabFilters) (st : DBState) : List VocabDBItem :=
  if f.sortOrder == some "alphabetical" then
    sortLe (fun a b => localeCompareLe a.english b.english) (allMatchingItems f st)
  else
    sortLe (fun a b => decide (a.id.getD 0 ≤ b.id.getD 0)) (allMatchingItems f st)

/-- The `getPaginatedVocabulary` query (db.ts lines 275-320): the
`[(page-1)*itemsPerPage, page*itemsPerPage)` slice of the sorted filtered
set, together with `total`, the length of the filtered set. -/
def getPaginatedVocabulary (page itemsPerPage : Nat) (f : VocabFilters) (st : DBState) :
    List VocabDBItem × Nat :=
  (((filteredSorted f st).drop ((page - 1) * itemsPerPage)).take itemsPerPage,
   (filteredSorted f st).length)

/-- Number of pages needed to cover the filtered set,
`ceil(total / itemsPerPage)`. -/
def pageCount (f : VocabFilters) (st : DBState) (itemsPerPage : Nat) : Nat :=
  ((allMatchingItems f st).length + itemsPerPage - 1) / itemsPerPage

theorem filteredSorted_length (f : VocabFilters) (st : DBState) :
    (filteredSorted f st).length = (allMatchingItems f st).length := by
  unfold filteredSorted
  split
  · exact sortLe_length _ _
  · exact sortLe_length _ _

/-- Concatenating the first k chunks of size ps of a list yields its first
k * ps elements. -/
theorem flatMap_chunks (L : List α) (ps : Nat) :
    ∀ k : Nat, (List.range k).flatMap (fun i => (L.drop (i * ps)).take ps) = L.take (k * ps) := by
  intro k
  induction k with
  | zero => simp
  | succ k ih =>
    rw [List.range_succ, List.flatMap_append, ih]
    simp only [List.flatMap_cons, List.flatMap_nil, List.append_nil]
    rw [Nat.succ_mul, List.take_add]

/-- Ceiling division bound: ceil(n / ps) pages of size ps cover n records. -/
theorem ceil_div_mul_ge (n ps : Nat) (hp : 0 < ps) : n ≤ ((n + ps - 1) / ps) * ps := by
  rcases Nat.eq_zero_or_pos n with rfl | hn
  · simp
  · have h1 : (n + ps - 1) / ps = (n - 1) / ps + 1 := by
      rw [show n + ps - 1 = (n - 1) + ps by omega]
      rw [Nat.add_div_right _ hp]
    rw [h1, Nat.succ_mul]
    have h2 := Nat.div_add_mod (n - 1) ps
    have h3 : (n - 1) % ps < ps := Nat.mod_lt _ hp
    rw [Nat.mul_comm] at h2
    generalize hq : (n - 1) / ps * ps = q at h2 ⊢
    generalize hr : (n - 1) % ps = r at h2 h3
    omega

/-- Concatenating pages 1..ceil(total/ps) of the paginated query recovers the
whole sorted filtered set. -/
theorem pages_concat_eq (st : DBState) (f : VocabFilters) (ps : Nat) (hps : 0 < ps) :
    (List.range (pageCount f st ps)).flatMap
        (fun i => (getPaginatedVocabulary (i + 1) ps f st).1)
      = filteredSorted f st := by
  simp only [getPaginatedVocabulary, Nat.add_sub_cancel]
  rw [flatMap_chunks (filteredSorted f st) ps (pageCount f st ps)]
  apply List.take_of_length_le
  rw [filteredSorted_length]
  exact ceil_div_mul_ge (allMatchingItems f st).length ps hps

/-- C5: for every store, filter set and positive page size,
`getPaginatedVocabulary` returns the `[(page-1)*ps, page*ps)` slice of the
sorted filtered set together with total = the size of the filtered set
before pagination, and concatenating pages 1..ceil(total/ps) yields exactly
the sorted filtered set, with no duplicates and no omissions. -/
theorem claim_C5_pagination_complete (st : DBState) (f : VocabFilters) (ps page : Nat)
    (hps : 0 < ps) :
    (getPaginatedVocabulary page ps f st).1
        = ((filteredSorted f st).drop ((page - 1) * ps)).take ps
    ∧ (getPaginatedVocabulary page ps f st).2 = (allMatchingItems f st).length
    ∧ (List.range (pageCount f st ps)).flatMap
        (fun i => (getPaginatedVocabulary (i + 1) ps f st).1)
      = filteredSorted f st := by
  exact ⟨rfl, filteredSorted_length f st, pages_concat_eq st f ps hps⟩

/-- Concrete store with three ingested records, used by the pagination
witnesses. -/
def pagDemoDB : DBState :=
  (addVocabularyItems [sampleWord, sampleWordNoun, sampleIdiom] emptyDB).1

/-- Trivial filter set: no filter provided. -/
def noFilters : VocabFilters :=
  { level := none, category := none, type := none, search := none,
    sortOrder := none, frequencyLevel := none }

/-- Witness for C5 at a concrete input: page 2 of size 2 over the three-record
store. -/
theorem claim_C5_witness :
    (getPaginatedVocabulary 2 2 noFilters pagDemoDB).1
        = ((filteredSorted noFilters pagDemoDB).drop ((2 - 1) * 2)).take 2
    ∧ (getPaginatedVocabulary 2 2 noFilters pagDemoDB).2
        = (allMatchingItems noFilters pagDemoDB).length
    ∧ (List.range (pageCount noFilters pagDemoDB 2)).flatMap
        (fun i => (getPaginatedVocabulary (i + 1) 2 noFilters pagDemoDB).1)
      = filteredSorted noFilters pagDemoDB :=
  claim_C5_pagination_complete pagDemoDB noFilters 2 2 (by decide)

/-- Characterisation of the `matches` predicate: each provided filter must
hold. -/
theorem matchesFilters_iff (f : VocabFilters) (r : VocabDBItem) :
    matchesFilters f r = true ↔
      (truthyS f.level = true → r.level = f.level.getD "")
      ∧ (truthyS f.category = true → r.category = f.category.getD "")
      ∧ (truthyS f.type = true → r.type = f.type.getD "")
      ∧ (truthyN f.frequencyLevel = true → r.frequencyLevel = f.frequencyLevel)
      ∧ (truthyS (f.search.map jsToLower) = true →
          (strIncludes (jsToLower r.english) ((f.search.map jsToLower).getD "") = true
           ∨ strIncludes (jsToLower r.japanese) ((f.search.map jsToLower).getD "") = true)) := by
  unfold matchesFilters
  repeat' split
  all_goals simp_all
  all_goals try aesop
  all_goals
    rcases Bool.eq_false_or_eq_true (truthyS (f.search.map jsToLower)) with hb | hb <;> tauto

/-- Well-formedness of the store: every record in the `words` collection is
word-typed and every record in the `idioms` collection is idiom-typed (the
ingest path only ever routes records that way). -/
def dbWellFormed (st : DBState) : Prop :=
  (∀ r ∈ st.words, r.type = "word") ∧ (∀ r ∈ st.idioms, r.type = "idiom")

instance (st : DBState) : Decidable (dbWellFormed st) := by
  unfold dbWellFormed; infer_instance

/-- On a well-formed store, membership in the scanned-and-filtered record set
is exactly membership in the corpus plus satisfaction of the `matches`
predicate: the collection-skipping `if`s of the scan agree with the type
filter inside `matches`. -/
theorem allMatchingItems_mem_iff (f : VocabFilters) (st : DBState)
    (hwf : dbWellFormed st) (r : VocabDBItem) :
    r ∈ allMatchingItems f st ↔ r ∈ st.words ++ st.idioms ∧ matchesFilters f r = true := by
  unfold allMatchingItems
  rw [List.mem_append, List.mem_append]
  constructor
  · rintro (h | h)
    · split at h
      · obtain ⟨hm, hp⟩ := List.mem_filter.mp h
        exact ⟨Or.inl hm, hp⟩
      · simp at h
    · split at h
      · obtain ⟨hm, hp⟩ := List.mem_filter.mp h
        exact ⟨Or.inr hm, hp⟩
      · simp at h
  · rintro ⟨h | h, hp⟩
    · left
      rw [if_pos]
      · exact List.mem_filter.mpr ⟨h, hp⟩
      · by_contra hty
        simp only [bne_iff_ne, ne_eq, Decidable.not_not] at hty
        have h1 := ((matchesFilters_iff f r).mp hp).2.2.1
        have h2 : truthyS f.type = true := by rw [hty]; decide
        have h3 := h1 h2
        rw [hty] at h3
        simp only [Option.getD_some] at h3
        have h4 := hwf.1 r h
        rw [h4] at h3
        exact absurd h3 (by decide)
    · right
      rw [if_pos]
      · exact List.mem_filter.mpr ⟨h, hp⟩
      · by_contra hty
        simp only [bne_iff_ne, ne_eq, Decidable.not_not] at hty
        have h1 := ((matchesFilters_iff f r).mp hp).2.2.1
        have h2 : truthyS f.type = true := by rw [hty]; decide
        have h3 := h1 h2
        rw [hty] at h3
        simp only [Option.getD_some] at h3
        have h4 := hwf.2 r h
        rw [h4] at h3
        exact absurd h3 (by decide)

/-- C6: on a well-formed store, a stored record appears on some page of
`getPaginatedVocabulary` if and only if it satisfies every provided filter:
equal level, equal category, equal type, frequency tier equal to the given
one, and the search text occurring case-insensitively as a substring of its
english or its japanese. -/
theorem claim_C6_filter_correctness (st : DBState) (f : VocabFilters) (ps : Nat)
    (r : VocabDBItem) (hps : 0 < ps) (hwf : dbWellFormed st) :
    (r ∈ (List.range (pageCount f st ps)).flatMap
        (fun i => (getPaginatedVocabulary (i + 1) ps f st).1))
    ↔ (r ∈ st.words ++ st.idioms
       ∧ (truthyS f.level = true → r.level = f.level.getD "")
       ∧ (truthyS f.category = true → r.category = f.category.getD "")
       ∧ (truthyS f.type = true → r.type = f.type.getD "")
       ∧ (truthyN f.frequencyLevel = true → r.frequencyLevel = f.frequencyLevel)
       ∧ (truthyS (f.search.map jsToLower) = true →
           (strIncludes (jsToLower r.english) ((f.search.map jsToLower).getD "") = true
            ∨ strIncludes (jsToLower r.japanese) ((f.search.map jsToLower).getD "") = true))) := by
  rw [pages_concat_eq st f ps hps]
  have hsort : r ∈ filteredSorted f st ↔ r ∈ allMatchingItems f st := by
    unfold filteredSorted
    split
    · exact (sortLe_perm _ _).mem_iff
    · exact (sortLe_perm _ _).mem_iff
  rw [hsort, allMatchingItems_mem_iff f st hwf r, matchesFilters_iff f r]

/-- Witness for C6 at a concrete input: the first stored word of the demo
store appears on some page of the unfiltered paginated query. -/
theorem claim_C6_witness :
    (({ sampleWord with id := some 1 } : VocabDBItem)
        ∈ (List.range (pageCount noFilters pagDemoDB 2)).flatMap
          (fun i => (getPaginatedVocabulary (i + 1) 2 noFilters pagDemoDB).1))
    ↔ (({ sampleWord with id := some 1 } : VocabDBItem) ∈ pagDemoDB.words ++ pagDemoDB.idioms
       ∧ (truthyS noFilters.level = true
            → ({ sampleWord with id := some 1 } : VocabDBItem).level = noFilters.level.getD "")
       ∧ (truthyS noFilters.category = true
            → ({ sampleWord with id := some 1 } : VocabDBItem).category = noFilters.category.getD "")
       ∧ (truthyS noFilters.type = true
            → ({ sampleWord with id := some 1 } : VocabDBItem).type = noFilters.type.getD "")
       ∧ (truthyN noFilters.frequencyLevel = true
            → ({ sampleWord with id := some 1 } : VocabDBItem).frequencyLevel
                = noFilters.frequencyLevel)
       ∧ (truthyS (noFilters.search.map jsToLower) = true →
           (strIncludes (jsToLower ({ sampleWord with id := some 1 } : VocabDBItem).english)
              ((noFilters.search.map jsToLower).getD "") = true
            ∨ strIncludes (jsToLower ({ sampleWord with id := some 1 } : VocabDBItem).japanese)
              ((noFilters.search.map jsToLower).getD "") = true))) :=
  claim_C6_filter_correctness pagDemoDB noFilters 2 { sampleWord with id := some 1 }
    (by decide) (by decide)

/-! ### The frequency annotation updater -/

/-- One element of the `updates` argument of `updateFrequencyLevels`
(db.ts line 344). -/
structure FrequencyUpdate where
  id : Nat
  type : String
  frequencyLevel : Nat
deriving DecidableEq, Repr

/-- `store.put(item)`: replace the record carrying `item`'s key. -/
def putById (l : List VocabDBItem) (item : VocabDBItem) : List VocabDBItem :=
  l.map (fun r => if r.id == item.id then item else r)

/-- The collection (`words` or `idioms`) an update is routed to:
`update.type === 'word' ? wordsStore : idiomsStore`. -/
def collOf (u : FrequencyUpdate) (st : DBState) : List VocabDBItem :=
  if u.type == "word" then st.words else st.idioms

/-- The uniqueness key of an update's target: collection plus record id. -/
def updateTarget (u : FrequencyUpdate) : Bool × Nat := (u.type == "word", u.id)

/-- Processing of one update by `updateFrequencyLevels` (db.ts lines
350-357): fetch by id from the collection named by `type`; if found, set
`frequencyLevel` and put the full record back; if absent, do nothing. -/
def applyFrequencyUpdate (st : DBState) (u : FrequencyUpdate) : DBState :=
  if u.type == "word" then
    match st.words.find? (fun r => r.id == some u.id) with
    | some item =>
      { st with words := putById st.words { item with frequencyLevel := some u.frequencyLevel } }
    | none => st
  else
    match st.idioms.find? (fun r => r.id == some u.id) with
    | some item =>
      { st with idioms := putById st.idioms { item with frequencyLevel := some u.frequencyLevel } }
    | none => st

/-- The `updateFrequencyLevels` batch (db.ts lines 344-360).  The
`Promise.all` of per-record get/put pairs runs inside one read-write
transaction whose request queue serialises them; the model applies the
updates in list order, which yields the same final store (each update writes
back the fetched record with only `frequencyLevel` changed). -/
def updateFrequencyLevels (updates : List FrequencyUpdate) (st : DBState) : DBState :=
  updates.foldl applyFrequencyUpdate st

/-- `putById` never changes the stored key sequence. -/
theorem putById_map_id (l : List VocabDBItem) (item : VocabDBItem) :
    (putById l item).map (fun r => r.id) = l.map (fun r => r.id) := by
  induction l with
  | nil => rfl
  | cons x xs ih =>
    simp only [putById, List.map_cons] at ih ⊢
    split
    · rename_i h
      rw [beq_iff_eq] at h
      exact congrArg₂ List.cons h.symm ih
    · exact congrArg _ ih

/-- The updater never changes either collection's key sequence. -/
theorem applyFrequencyUpdate_map_id (st : DBState) (u : FrequencyUpdate) :
    (applyFrequencyUpdate st u).words.map (fun r => r.id) = st.words.map (fun r => r.id)
    ∧ (applyFrequencyUpdate st u).idioms.map (fun r => r.id) = st.idioms.map (fun r => r.id) := by
  unfold applyFrequencyUpdate
  repeat' split
  all_goals simp [putById_map_id]

/-- Keys are unchanged by a whole `updateFrequencyLevels` call. -/
theorem updateFrequencyLevels_map_id (updates : List FrequencyUpdate) (st : DBState) :
    (updateFrequencyLevels updates st).words.map (fun r => r.id) = st.words.map (fun r => r.id)
    ∧ (updateFrequencyLevels updates st).idioms.map (fun r => r.id)
        = st.idioms.map (fun r => r.id) := by
  induction updates generalizing st with
  | nil => exact ⟨rfl, rfl⟩
  | cons u rest ih =>
    have h1 := applyFrequencyUpdate_map_id st u
    have h2 := ih (applyFrequencyUpdate st u)
    exact ⟨h2.1.trans h1.1, h2.2.trans h1.2⟩

/-- With pairwise-distinct keys, `find?` by key returns exactly the member
carrying that key. -/
theorem find?_of_mem_nodup (l : List VocabDBItem) (i : Nat) (r : VocabDBItem)
    (hnd : (l.map (fun x => x.id)).Nodup) (hr : r ∈ l) (hid : r.id = some i) :
    l.find? (fun x => x.id == some i) = some r := by
  induction l with
  | nil => simp at hr
  | cons x xs ih =>
    simp only [List.map_cons, List.nodup_cons] at hnd
    rcases List.mem_cons.mp hr with rfl | hr'
    · rw [List.find?_cons_of_pos]
      simp [hid]
    · rw [List.find?_cons_of_neg, ih hnd.2 hr']
      intro hx
      rw [beq_iff_eq] at hx
      apply hnd.1
      rw [hx, ← hid]
      exact List.mem_map_of_mem _ hr'

/-- A member whose key matches the put record is replaced by it. -/
theorem mem_putById (l : List VocabDBItem) (item r : VocabDBItem)
    (hr : r ∈ l) (hid : r.id = item.id) : item ∈ putById l item := by
  unfold putById
  exact List.mem_map.mpr ⟨r, hr, by simp [hid]⟩

/-- A member whose key differs from the put record is untouched by the put. -/
theorem mem_putById_other (l : List VocabDBItem) (item r : VocabDBItem)
    (hr : r ∈ l) (hid : r.id ≠ item.id) : r ∈ putById l item := by
  unfold putById
  exact List.mem_map.mpr ⟨r, hr, by simp [hid]⟩

/-- An update that does not target a given word record leaves it in place. -/
theorem apply_frame_word (st : DBState) (u : FrequencyUpdate) (r : VocabDBItem)
    (hr : r ∈ st.words) (h : u.type = "word" → some u.id ≠ r.id) :
    r ∈ (applyFrequencyUpdate st u).words := by
  unfold applyFrequencyUpdate
  split
  · rename_i hty
    rw [beq_iff_eq] at hty
    split
    · rename_i item hfind
      apply mem_putById_other _ _ _ hr
      have hitem : item.id = some u.id := by
        have := List.find?_some hfind
        rwa [beq_iff_eq] at this
      show r.id ≠ item.id
      rw [hitem]
      exact Ne.symm (h hty)
    · exact hr
  · split
    · exact hr
    · exact hr

/-- An update that does not target a given idiom record leaves it in place. -/
theorem apply_frame_idiom (st : DBState) (u : FrequencyUpdate) (r : VocabDBItem)
    (hr : r ∈ st.idioms) (h : ¬u.type = "word" → some u.id ≠ r.id) :
    r ∈ (applyFrequencyUpdate st u).idioms := by
  unfold applyFrequencyUpdate
  split
  · split
    · exact hr
    · exact hr
  · rename_i hty
    rw [beq_iff_eq] at hty
    split
    · rename_i item hfind
      apply mem_putById_other _ _ _ hr
      have hitem : item.id = some u.id := by
        have := List.find?_some hfind
        rwa [beq_iff_eq] at this
      show r.id ≠ item.id
      rw [hitem]
      exact Ne.symm (h hty)
    · exact hr

/-- A word record targeted by no update in the batch survives the whole
batch. -/
theorem fold_frame_word (updates : List FrequencyUpdate) :
    ∀ (st : DBState) (r : VocabDBItem), r ∈ st.words →
      (∀ u ∈ updates, u.type = "word" → some u.id ≠ r.id) →
      r ∈ (updateFrequencyLevels updates st).words := by
  induction updates with
  | nil => intro st r hr _; exact hr
  | cons u rest ih =>
    intro st r hr hcond
    simp only [updateFrequencyLevels, List.foldl_cons]
    exact ih (applyFrequencyUpdate st u) r
      (apply_frame_word st u r hr (hcond u (List.mem_cons_self u rest)))
      (fun u' hu' => hcond u' (List.mem_cons_of_mem u hu'))

/-- An idiom record targeted by no update in the batch survives the whole
batch. -/
theorem fold_frame_idiom (updates : List FrequencyUpdate) :
    ∀ (st : DBState) (r : VocabDBItem), r ∈ st.idioms →
      (∀ u ∈ updates, ¬u.type = "word" → some u.id ≠ r.id) →
      r ∈ (updateFrequencyLevels updates st).idioms := by
  induction updates with
  | nil => intro st r hr _; exact hr
  | cons u rest ih =>
    intro st r hr hcond
    simp only [updateFrequencyLevels, List.foldl_cons]
    exact ih (applyFrequencyUpdate st u) r
      (apply_frame_idiom st u r hr (hcond u (List.mem_cons_self u rest)))
      (fun u' hu' => hcond u' (List.mem_cons_of_mem u hu'))

/-- A word record targeted by exactly one update of the batch carries the
updated frequency level afterwards, all other fields unchanged. -/
theorem update_hit_word (updates : List FrequencyUpdate) :
    ∀ st : DBState, (st.words.map (fun x => x.id)).Nodup →
      (updates.map updateTarget).Nodup →
      ∀ u ∈ updates, u.type = "word" → ∀ r ∈ st.words, r.id = some u.id →
      { r with frequencyLevel := some u.frequencyLevel }
        ∈ (updateFrequencyLevels updates st).words := by
  induction updates with
  | nil => intro st _ _ u hu; simp at hu
  | cons u0 rest ih =>
    intro st hnd hnt u hu hty r hr hid
    simp only [List.map_cons, List.nodup_cons] at hnt
    rcases List.mem_cons.mp hu with rfl | hu'
    · have happ : applyFrequencyUpdate st u
          = { st with words := putById st.words { r with frequencyLevel := some u.frequencyLevel } } := by
        unfold applyFrequencyUpdate
        rw [if_pos (by simp [hty])]
        rw [find?_of_mem_nodup st.words u.id r hnd hr hid]
      simp only [updateFrequencyLevels, List.foldl_cons]
      rw [happ]
      have hmem1 : { r with frequencyLevel := some u.frequencyLevel }
          ∈ putById st.words { r with frequencyLevel := some u.frequencyLevel } :=
        mem_putById _ _ r hr rfl
      apply fold_frame_word rest _ _ hmem1
      intro u' hu'' hty' heq
      apply hnt.1
      have h1 : u'.id = u.id := by
        have h2 : (some u'.id : Option Nat) = some u.id := heq.trans hid
        injection h2
      have h3 : updateTarget u' = updateTarget u := by
        unfold updateTarget
        rw [hty, hty', h1]
      rw [← h3]
      exact List.mem_map_of_mem _ hu''
    · have hr1 : r ∈ (applyFrequencyUpdate st u0).words := by
        apply apply_frame_word st u0 r hr
        intro hty0 heq
        apply hnt.1
        have h1 : u0.id = u.id := by
          have h2 : (some u0.id : Option Nat) = some u.id := heq.trans hid
          injection h2
        have h3 : updateTarget u0 = updateTarget u := by
          unfold updateTarget
          rw [hty0, hty, h1]
        rw [h3]
        exact List.mem_map_of_mem _ hu'
      have hnd1 : ((applyFrequencyUpdate st u0).words.map (fun x => x.id)).Nodup := by
        rw [(applyFrequencyUpdate_map_id st u0).1]
        exact hnd
      simp only [updateFrequencyLevels, List.foldl_cons]
      exact ih (applyFrequencyUpdate st u0) hnd1 hnt.2 u hu' hty r hr1 hid

/-- An idiom-routed record targeted by exactly one update of the batch
carries the updated frequency level afterwards, all other fields
unchanged. -/
theorem update_hit_idiom (updates : List FrequencyUpdate) :
    ∀ st : DBState, (st.idioms.map (fun x => x.id)).Nodup →
      (updates.map updateTarget).Nodup →
      ∀ u ∈ updates, ¬u.type = "word" → ∀ r ∈ st.idioms, r.id = some u.id →
      { r with frequencyLevel := some u.frequencyLevel }
        ∈ (updateFrequencyLevels updates st).idioms := by
  induction updates with
  | nil => intro st _ _ u hu; simp at hu
  | cons u0 rest ih =>
    intro st hnd hnt u hu hty r hr hid
    simp only [List.map_cons, List.nodup_cons] at hnt
    rcases List.mem_cons.mp hu with rfl | hu'
    · have happ : applyFrequencyUpdate st u
          = { st with idioms := putById st.idioms { r with frequencyLevel := some u.frequencyLevel } } := by
        unfold applyFrequencyUpdate
        rw [if_neg (by simp [hty])]
        rw [find?_of_mem_nodup st.idioms u.id r hnd hr hid]
      simp only [updateFrequencyLevels, List.foldl_cons]
      rw [happ]
      have hmem1 : { r with frequencyLevel := some u.frequencyLevel }
          ∈ putById st.idioms { r with frequencyLevel := some u.frequencyLevel } :=
        mem_putById _ _ r hr rfl
      apply fold_frame_idiom rest _ _ hmem1
      intro u' hu'' hty' heq
      apply hnt.1
      have h1 : u'.id = u.id := by
        have h2 : (some u'.id : Option Nat) = some u.id := heq.trans hid
        injection h2
      have h3 : updateTarget u' = updateTarget u := by
        unfold updateTarget
        rw [h1]
        congr 1
        simp [hty, hty']
      rw [← h3]
      exact List.mem_map_of_mem _ hu''
    · have hr1 : r ∈ (applyFrequencyUpdate st u0).idioms := by
        apply apply_frame_idiom st u0 r hr
        intro hty0 heq
        apply hnt.1
        have h1 : u0.id = u.id := by
          have h2 : (some u0.id : Option Nat) = some u.id := heq.trans hid
          injection h2
        have h3 : updateTarget u0 = updateTarget u := by
          unfold updateTarget
          rw [h1]
          congr 1
          simp [hty0, hty]
        rw [h3]
        exact List.mem_map_of_mem _ hu'
      have hnd1 : ((applyFrequencyUpdate st u0).idioms.map (fun x => x.id)).Nodup := by
        rw [(applyFrequencyUpdate_map_id st u0).2]
        exact hnd
      simp only [updateFrequencyLevels, List.foldl_cons]
      exact ih (applyFrequencyUpdate st u0) hnd1 hnt.2 u hu' hty r hr1 hid

/-- An update whose id is absent from its collection is a no-op. -/
theorem applyFrequencyUpdate_none (st : DBState) (u : FrequencyUpdate)
    (h : (collOf u st).find? (fun r => r.id == some u.id) = none) :
    applyFrequencyUpdate st u = st := by
  unfold applyFrequencyUpdate
  by_cases hty : (u.type == "word") = true
  · rw [if_pos hty]
    rw [collOf, if_pos hty] at h
    rw [h]
  · rw [if_neg hty]
    rw [collOf, if_neg hty] at h
    rw [h]

/-- Counterexample to C8 as stated: with two updates in one call targeting
the same word id 1 (first setting frequencyLevel 2, then 3), the record
afterwards does not carry the first update's value 2 — only the last write
persists (value 3) — so "for each update whose id exists, the stored record
afterward has frequencyLevel set to the given value" fails for the first
update. -/
theorem claim_C8_counterexample :
    ¬(((updateFrequencyLevels [⟨1, "word", 2⟩, ⟨1, "word", 3⟩] pagDemoDB).words.find?
        (fun x => x.id == some 1)).map (fun x => x.frequencyLevel) = some (some 2))
    ∧ ((updateFrequencyLevels [⟨1, "word", 2⟩, ⟨1, "word", 3⟩] pagDemoDB).words.find?
        (fun x => x.id == some 1)).map (fun x => x.frequencyLevel) = some (some 3) := by
  constructor
  · decide
  · decide

/-- C8 (amended with the pairwise-distinct-target hypothesis the
counterexample forces, and with per-collection key uniqueness, which the
real store guarantees through its auto-increment keys): for every updates
list whose (collection, id) targets are pairwise distinct, each update whose
id exists in the collection named by its type leaves that record with
`frequencyLevel` set to the given value and every other field unchanged;
an update whose id is absent from its collection changes nothing and raises
no error. -/
theorem claim_C8_frequency_update_amended (st : DBState) (updates : List FrequencyUpdate)
    (hw : (st.words.map (fun x => x.id)).Nodup)
    (hi : (st.idioms.map (fun x => x.id)).Nodup)
    (hnt : (updates.map updateTarget).Nodup) :
    (∀ u ∈ updates, ∀ r ∈ collOf u st, r.id = some u.id →
        (collOf u (updateFrequencyLevels updates st)).find? (fun x => x.id == some u.id)
          = some { r with frequencyLevel := some u.frequencyLevel })
    ∧ (∀ (st' : DBState) (u : FrequencyUpdate),
        (collOf u st').find? (fun x => x.id == some u.id) = none →
        applyFrequencyUpdate st' u = st') := by
  refine ⟨?_, fun st' u h => applyFrequencyUpdate_none st' u h⟩
  intro u hu r hr hid
  by_cases hty : u.type = "word"
  · have hr' : r ∈ st.words := by
      rwa [collOf, if_pos (by simp [hty])] at hr
    have hmem := update_hit_word updates st hw hnt u hu hty r hr' hid
    have hndF : ((updateFrequencyLevels updates st).words.map (fun x => x.id)).Nodup := by
      rw [(updateFrequencyLevels_map_id updates st).1]
      exact hw
    rw [collOf, if_pos (by simp [hty])]
    exact find?_of_mem_nodup _ u.id _ hndF hmem hid
  · have hr' : r ∈ st.idioms := by
      rwa [collOf, if_neg (by simp [hty])] at hr
    have hmem := update_hit_idiom updates st hi hnt u hu hty r hr' hid
    have hndF : ((updateFrequencyLevels updates st).idioms.map (fun x => x.id)).Nodup := by
      rw [(updateFrequencyLevels_map_id updates st).2]
      exact hi
    rw [collOf, if_neg (by simp [hty])]
    exact find?_of_mem_nodup _ u.id _ hndF hmem hid

/-- Witness for the amended C8 at a concrete input: setting frequency tier 3
on word id 1 of the demo store yields that record with tier 3 and all other
fields unchanged. -/
theorem claim_C8_witness :
    (collOf ⟨1, "word", 3⟩ (updateFrequencyLevels [⟨1, "word", 3⟩] pagDemoDB)).find?
        (fun x => x.id == some 1)
      = some { ({ sampleWord with id := some 1 } : VocabDBItem) with frequencyLevel := some 3 } :=
  (claim_C8_frequency_update_amended pagDemoDB [⟨1, "word", 3⟩]
      (by decide) (by decide) (by decide)).1
    ⟨1, "word", 3⟩ (by decide) { sampleWord with id := some 1 } (by decide) (by decide)

/-! ### The name-collision sampling helper and its random-comparator sort -/

/-- Insertion of one element during a comparison sort whose comparator is
`() => 0.5 - Math.random()`: each comparison consumes one fair-coin draw,
`true` standing for a positive comparator value (the inserted element sorts
after the probed one), `false` for a non-positive one. -/
def insertRand (x : α) : List α → List Bool → List α × List Bool
  | [], ds => ([x], ds)
  | y :: ys, ds =>
    match ds with
    | [] => (x :: y :: ys, [])
    | b :: rest =>
      if b then
        let r := insertRand x ys rest
        (y :: r.1, r.2)
      else (x :: y :: ys, rest)

/-- Comparison sort driven by a random comparator, threading the remaining
draws.  ECMAScript leaves the sort algorithm implementation-defined (and
with an inconsistent comparator even the produced order is unspecified);
the model fixes an insertion sort, one coin per comparison. -/
def sortRandCore : List α → List Bool → List α × List Bool
  | [], ds => ([], ds)
  | x :: xs, ds =>
    let s := sortRandCore xs ds
    insertRand x s.1 s.2

/-- The shuffle of `getExistingWords` (db.ts line 271):
`items.sort(() => 0.5 - Math.random())`. -/
def sortRand (l : List α) (ds : List Bool) : List α := (sortRandCore l ds).1

/-- All coin-draw sequences of a given length, each equally likely. -/
def boolStreams : Nat → List (List Bool)
  | 0 => [[]]
  | n + 1 => (boolStreams n).flatMap (fun s => [false :: s, true :: s])

/-- The `getExistingWords` sampling helper (db.ts lines 251-273): union of
the selected collections, level/category filters, the random-comparator
shuffle, then `take limit` and formatting `english` (words qualified with
their pos). -/
def getExistingWords (st : DBState) (level category ty : String) (limit : Nat)
    (ds : List Bool) : List String :=
  let items :=
    (if ty == "word" || ty == "all" then st.words else [])
    ++ (if ty == "idiom" || ty == "all" then st.idioms else [])
  let items := if level != "All Levels" then items.filter (fun r => r.level == level) else items
  let items :=
    if category != "All Categories" then items.filter (fun r => r.category == category)
    else items
  let shuffled := sortRand items ds
  (shuffled.take limit).map (fun item =>
    match item.pos with
    | some p => if item.type == "word" && p != "" then item.english ++ "-" ++ p else item.english
    | none => item.english)

/-- Three-word store used to exhibit the bias of the random-comparator
shuffle. -/
def shuffleDemoDB : DBState :=
  { words :=
      [{ sampleWord with english := "alpha", id := some 1 },
       { sampleWord with english := "beta", id := some 2 },
       { sampleWord with english := "gamma", id := some 3 }],
    idioms := [], nextWordId := 4, nextIdiomId := 1 }

/-- C3 (failing-input evaluation): the `getExistingWords` sampling uses
`items.sort(() => 0.5 - Math.random())`, a sort by random comparator, and
its output distribution is biased: over the 8 equally likely draw sequences
of three fair coins, the untouched order appears twice while the
transposition of the first two elements appears once — not the uniform
shuffle the claim asserts for every random sampling operation of the query
engine. -/
theorem claim_C3_sort_by_random_biased :
    ((boolStreams 3).map
        (fun ds => getExistingWords shuffleDemoDB "All Levels" "All Categories" "all" 10 ds)).count
        ["alpha-Verb", "beta-Verb", "gamma-Verb"] = 2
    ∧ ((boolStreams 3).map
        (fun ds => getExistingWords shuffleDemoDB "All Levels" "All Categories" "all" 10 ds)).count
        ["beta-Verb", "alpha-Verb", "gamma-Verb"] = 1 := by
  constructor
  · decide
  · decide

/-! ### Transactional fault model of the batch ingest -/

/-- Loop body of `addVocabularyItems` with fault injection: `ops` counts the
storage requests (index probes and adds) issued so far in the transaction,
and `faults n = true` makes the n-th request fail, as an unexpected storage
fault would.  Returns the transaction-local state, the added/warned deltas
and the new request count, or the error. -/
def processItemF (faults : Nat → Bool) (st : DBState) (ops : Nat) (item : VocabDBItem) :
    Except Unit (DBState × Nat × Nat × Nat) :=
  if item.english == "" || item.type == "" then .ok (st, 0, 1, ops)
  else if item.japanese == "" || item.example_en == "" || item.example_jp == ""
      || item.level == "" || item.category == "" then .ok (st, 0, 1, ops)
  else if item.type == "word" then
    match item.pos with
    | some p =>
      if PARTS_OF_SPEECH.contains p then
        if faults ops then .error ()
        else
          match findWordDup st.words item with
          | some _ => .ok (st, 0, 0, ops + 1)
          | none =>
            if faults (ops + 1) then .error ()
            else .ok (insertWord st item, 1, 0, ops + 2)
      else .ok (st, 0, 1, ops)
    | none => .ok (st, 0, 1, ops)
  else if item.type == "idiom" then
    if faults ops then .error ()
    else
      match findIdiomDup st.idioms item with
      | some _ => .ok (st, 0, 0, ops + 1)
      | none =>
        if faults (ops + 1) then .error ()
        else .ok (insertIdiom st item, 1, 0, ops + 2)
  else .ok (st, 0, 0, ops)

/-- The ingest loop under the fault model, inside the transaction. -/
def addItemsLoopF (faults : Nat → Bool) :
    List VocabDBItem → DBState → Nat → Except Unit (DBState × Nat × Nat × Nat)
  | [], st, ops => .ok (st, 0, 0, ops)
  | item :: rest, st, ops =>
    match processItemF faults st ops item with
    | .error e => .error e
    | .ok (st1, a1, w1, ops1) =>
      match addItemsLoopF faults rest st1 ops1 with
      | .error e => .error e
      | .ok (st2, a2, w2, ops2) => .ok (st2, a1 + a2, w1 + w2, ops2)

/-- `addVocabularyItems` under the fault model (db.ts lines 106-158): the
loop runs inside one read-write transaction spanning both stores; on success
`tx.done` commits the transaction state; on an unexpected error the `catch`
block aborts the transaction — discarding every write of this call — and
rethrows, so the persistent store is exactly as before the call. -/
def addVocabularyItemsF (faults : Nat → Bool) (items : List VocabDBItem) (db : DBState) :
    DBState × Except Unit Nat :=
  match addItemsLoopF faults items db 0 with
  | .ok (st, a, _, _) => (st, .ok a)
  | .error e => (db, .error e)

/-- With no faults, the loop body under the fault model computes exactly the
fault-free loop body. -/
theorem processItemF_noFault (st : DBState) (ops : Nat) (item : VocabDBItem) :
    ∃ ops', processItemF (fun _ => false) st ops item
      = .ok ((processItem st item).1, (processItem st item).2.1,
             (processItem st item).2.2, ops') := by
  unfold processItemF processItem
  repeat' split
  all_goals first
    | exact ⟨_, rfl⟩
    | simp_all

/-- With no faults, the transactional loop computes exactly the fault-free
ingest. -/
theorem addItemsLoopF_noFault (items : List VocabDBItem) :
    ∀ (st : DBState) (ops : Nat), ∃ ops',
      addItemsLoopF (fun _ => false) items st ops
        = .ok ((addVocabularyItems items st).1, (addVocabularyItems items st).2.1,
               (addVocabularyItems items st).2.2, ops') := by
  induction items with
  | nil => intro st ops; exact ⟨ops, rfl⟩
  | cons item rest ih =>
    intro st ops
    obtain ⟨o1, h1⟩ := processItemF_noFault st ops item
    obtain ⟨o2, h2⟩ := ih (processItem st item).1 o1
    refine ⟨o2, ?_⟩
    simp only [addItemsLoopF, h1, h2, addVocabularyItems]

/-- C4: all insertions of one `addVocabularyItems` call happen inside a
single read-write transaction over both collections: if an unexpected
storage error occurs anywhere in the call, the error propagates and the
persistent store is exactly as before the call (no partial write survives);
and on the fault-free path the transactional model commits exactly the
fault-free ingest result with its addedCount. -/
theorem claim_C4_transaction_abort (faults : Nat → Bool) (items : List VocabDBItem)
    (db : DBState) :
    (∀ e : Unit, (addVocabularyItemsF faults items db).2 = .error e →
        (addVocabularyItemsF faults items db).1 = db)
    ∧ addVocabularyItemsF (fun _ => false) items db
        = ((addVocabularyItems items db).1, .ok (addVocabularyItems items db).2.1) := by
  constructor
  · intro e he
    unfold addVocabularyItemsF at he ⊢
    cases h : addItemsLoopF faults items db 0 with
    | ok v =>
      obtain ⟨st1, a1, w1, o1⟩ := v
      rw [h] at he
      simp at he
    | error e' =>
      rfl
  · obtain ⟨o, ho⟩ := addItemsLoopF_noFault items db 0
    unfold addVocabularyItemsF
    rw [ho]

/-- Witness for C4 at a concrete input: a storage fault at the very first
request leaves the store untouched and surfaces the error, while the
fault-free run commits the ingest of one word. -/
theorem claim_C4_witness :
    (addVocabularyItemsF (fun _ => true) [sampleWord] emptyDB).1 = emptyDB
    ∧ addVocabularyItemsF (fun _ => false) [sampleWord] emptyDB
        = ((addVocabularyItems [sampleWord] emptyDB).1,
           .ok (addVocabularyItems [sampleWord] emptyDB).2.1) :=
  ⟨(claim_C4_transaction_abort (fun _ => true) [sampleWord] emptyDB).1 () (by rfl),
   (claim_C4_transaction_abort (fun _ => false) [sampleWord] emptyDB).2⟩

/-! ### Uniformity of the Fisher-Yates loop

The loop of db.ts lines 193-196 viewed on an array `a : Fin n → α`: each
iteration swaps positions `k` and `j` with `j = Math.floor(Math.random() *
(k + 1))` drawn uniformly from `0..k`.  A whole run is determined by one
draw per index, an element of `DrawSeq n`; all `n!` draw sequences are
equally likely, and the map from draw sequences to the permutation applied
to the array is a bijection, so every permutation of the array has
probability `1/n!` — the uniform shuffle the specification demands (and
which the `getExistingWords` comparator shuffle lacks). -/

/-- One uniform draw per index: the draw for index i lies in 0..i. -/
abbrev DrawSeq (n : Nat) := ∀ i : Fin n, Fin (i.val + 1)

/-- The draw for index k, as a position of the array. -/
def drawIndex {n : Nat} (k : Nat) (h : k < n) (ds : DrawSeq n) : Fin n :=
  ⟨(ds ⟨k, h⟩).val, Nat.lt_of_le_of_lt (Nat.le_of_lt_succ (ds ⟨k, h⟩).isLt) h⟩

/-- The permutation of positions effected by the loop run from index k - 1
down to 1 (index 0 draws are the trivial `Fin 1` and swap nothing). -/
def fyPermAux (n : Nat) (ds : DrawSeq n) : (k : Nat) → k ≤ n → Equiv.Perm (Fin n)
  | 0, _ => 1
  | k + 1, h => Equiv.swap ⟨k, h⟩ (drawIndex k h ds) * fyPermAux n ds k (Nat.le_of_succ_le h)

/-- The permutation of positions effected by one whole Fisher-Yates run. -/
def fyPerm (n : Nat) (ds : DrawSeq n) : Equiv.Perm (Fin n) :=
  fyPermAux n ds n (Nat.le_refl n)

/-- In-place swap of two positions of an array-as-function. -/
def swapFun (a : Fin n → α) (i j : Fin n) : Fin n → α := a ∘ Equiv.swap i j

/-- The Fisher-Yates loop on an array-as-function, from index k - 1 down. -/
def fyFunAux (n : Nat) (ds : DrawSeq n) : (k : Nat) → k ≤ n → (Fin n → α) → (Fin n → α)
  | 0, _, a => a
  | k + 1, h, a => fyFunAux n ds k (Nat.le_of_succ_le h) (swapFun a ⟨k, h⟩ (drawIndex k h ds))

/-- One whole Fisher-Yates run on an array-as-function. -/
def fyFun (n : Nat) (ds : DrawSeq n) (a : Fin n → α) : Fin n → α :=
  fyFunAux n ds n (Nat.le_refl n) a

/-- The loop is exactly the application of the accumulated permutation. -/
theorem fyFunAux_eq (n : Nat) (ds : DrawSeq n) :
    ∀ (k : Nat) (h : k ≤ n) (a : Fin n → α),
      fyFunAux n ds k h a = a ∘ (fyPermAux n ds k h) := by
  intro k
  induction k generalizing α with
  | zero => intro h a; rfl
  | succ k ih =>
    intro h a
    show fyFunAux n ds k _ (swapFun a ⟨k, h⟩ (drawIndex k h ds)) = _
    rw [ih _ (swapFun a ⟨k, h⟩ (drawIndex k h ds))]
    funext x
    simp [swapFun, fyPermAux, Equiv.Perm.mul_apply, Function.comp]

/-- Positions at or above k are fixed by the partial permutation. -/
theorem fyPermAux_fix (n : Nat) (ds : DrawSeq n) :
    ∀ (k : Nat) (h : k ≤ n) (x : Fin n), k ≤ x.val → fyPermAux n ds k h x = x := by
  intro k
  induction k with
  | zero => intro h x _; rfl
  | succ k ih =>
    intro h x hx
    show (Equiv.swap ⟨k, h⟩ (drawIndex k h ds)) (fyPermAux n ds k _ x) = x
    rw [ih _ x (Nat.le_of_succ_le hx)]
    apply Equiv.swap_apply_of_ne_of_ne
    · intro hc
      rw [hc] at hx
      exact absurd hx (by simp)
    · intro hc
      have h1 : x.val = (drawIndex k h ds).val := congrArg Fin.val hc
      have h2 : (drawIndex k h ds).val ≤ k := Nat.le_of_lt_succ (ds ⟨k, h⟩).isLt
      omega

/-- The partial permutation sends position k to the draw for index k. -/
theorem fyPermAux_top (n : Nat) (ds : DrawSeq n) (k : Nat) (h : k + 1 ≤ n) :
    fyPermAux n ds (k + 1) h ⟨k, h⟩ = drawIndex k h ds := by
  show (Equiv.swap ⟨k, h⟩ (drawIndex k h ds)) (fyPermAux n ds k _ ⟨k, h⟩) = _
  rw [fyPermAux_fix n ds k _ ⟨k, h⟩ (Nat.le_refl k)]
  exact Equiv.swap_apply_left _ _

/-- The draws below k are recoverable from the partial permutation. -/
theorem fyPermAux_inj (n : Nat) (ds ds' : DrawSeq n) :
    ∀ (k : Nat) (h : k ≤ n), fyPermAux n ds k h = fyPermAux n ds' k h →
      ∀ i : Fin n, i.val < k → ds i = ds' i := by
  intro k
  induction k with
  | zero => intro h _ i hi; exact absurd hi (Nat.not_lt_zero _)
  | succ k ih =>
    intro h heq i hi
    have htop : drawIndex k h ds = drawIndex k h ds' := by
      rw [← fyPermAux_top n ds k h, ← fyPermAux_top n ds' k h, heq]
    have hdk : ds ⟨k, h⟩ = ds' ⟨k, h⟩ := by
      have hv : (drawIndex k h ds).val = (drawIndex k h ds').val := congrArg Fin.val htop
      exact Fin.ext hv
    have hrest : fyPermAux n ds k (Nat.le_of_succ_le h) = fyPermAux n ds' k (Nat.le_of_succ_le h) := by
      have heq' : Equiv.swap ⟨k, h⟩ (drawIndex k h ds) * fyPermAux n ds k (Nat.le_of_succ_le h)
          = Equiv.swap ⟨k, h⟩ (drawIndex k h ds) * fyPermAux n ds' k (Nat.le_of_succ_le h) := by
        calc Equiv.swap ⟨k, h⟩ (drawIndex k h ds) * fyPermAux n ds k (Nat.le_of_succ_le h)
            = fyPermAux n ds (k + 1) h := rfl
          _ = fyPermAux n ds' (k + 1) h := heq
          _ = Equiv.swap ⟨k, h⟩ (drawIndex k h ds') * fyPermAux n ds' k (Nat.le_of_succ_le h) := rfl
          _ = Equiv.swap ⟨k, h⟩ (drawIndex k h ds) * fyPermAux n ds' k (Nat.le_of_succ_le h) := by
              rw [htop]
      exact mul_left_cancel heq'
    rcases Nat.lt_succ_iff_lt_or_eq.mp hi with hlt | hk
    · exact ih (Nat.le_of_succ_le h) hrest i hlt
    · have : i = ⟨k, h⟩ := Fin.ext hk
      rw [this]
      exact hdk

/-- The number of equally likely draw sequences is n!. -/
theorem card_drawSeq (n : Nat) : Fintype.card (DrawSeq n) = n.factorial := by
  rw [Fintype.card_pi]
  induction n with
  | zero => simp
  | succ n ih =>
    rw [Fin.prod_univ_castSucc]
    simp only [Fin.coe_castSucc, Fin.val_last] at *
    rw [ih, Nat.factorial_succ, Nat.mul_comm, Fintype.card_fin]

/-- Uniformity of the Fisher-Yates shuffle of `getVocabulary` and
`getAllVocabularyForLevelAndCategory`: the loop applies to the array the
permutation `fyPerm n ds`, the map from draw sequences to permutations is a
bijection, and there are exactly n! equally likely draw sequences — hence
every permutation of the array arises with probability 1/n!. -/
theorem fisherYates_loop_uniform (n : Nat) :
    Function.Bijective (fyPerm n)
    ∧ Fintype.card (DrawSeq n) = n.factorial
    ∧ ∀ (α : Type) (ds : DrawSeq n) (a : Fin n → α), fyFun n ds a = a ∘ (fyPerm n ds) := by
  refine ⟨?_, card_drawSeq n, fun α ds a => fyFunAux_eq n ds n (Nat.le_refl n) a⟩
  rw [Fintype.bijective_iff_injective_and_card]
  constructor
  · intro ds ds' heq
    funext i
    exact fyPermAux_inj n ds ds' n (Nat.le_refl n) heq i i.isLt
  · rw [card_drawSeq, Fintype.card_perm, Fintype.card_fin]

/-- The in-place swap reads the array through the transposition of the two
positions. -/
theorem listSwap_eq_ofFn (l : List α) (i j : Nat) (hi : i < l.length) (hj : j < l.length) :
    listSwap l i j = List.ofFn (l.get ∘ Equiv.swap ⟨i, hi⟩ ⟨j, hj⟩) := by
  unfold listSwap
  rw [List.getElem?_eq_getElem hi, List.getElem?_eq_getElem hj]
  apply List.ext_getElem
  · simp
  · intro x h1 h2
    simp only [List.getElem_set, List.getElem_ofFn, Function.comp_apply]
    rw [Equiv.swap_apply_def]
    by_cases hxi : x = i <;> by_cases hxj : x = j <;>
      simp_all [Fin.ext_iff, List.get_eq_getElem, eq_comm]

/-- The in-place swap permutes the list. -/
theorem listSwap_perm (l : List α) (i j : Nat) : (listSwap l i j).Perm l := by
  by_cases hi : i < l.length
  · by_cases hj : j < l.length
    · rw [listSwap_eq_ofFn l i j hi hj]
      have h1 := Equiv.Perm.ofFn_comp_perm (Equiv.swap (⟨i, hi⟩ : Fin l.length) ⟨j, hj⟩) l.get
      simpa [List.ofFn_get] using h1
    · unfold listSwap
      rw [List.getElem?_eq_none (Nat.le_of_not_lt hj)]
      cases l[i]? <;> exact List.Perm.refl l
  · unfold listSwap
    rw [List.getElem?_eq_none (Nat.le_of_not_lt hi)]

/-- The Fisher-Yates loop permutes the list. -/
theorem fisherYatesAux_perm (k : Nat) :
    ∀ (ds : List Nat) (l : List α), (fisherYatesAux ds k l).Perm l := by
  induction k with
  | zero => intro ds l; exact List.Perm.refl l
  | succ k ih =>
    intro ds l
    exact (ih ds.tail (listSwap l (k + 1) (ds.headD 0 % (k + 2)))).trans
      (listSwap_perm l (k + 1) (ds.headD 0 % (k + 2)))

/-- The Fisher-Yates shuffle of the query pipeline returns a permutation of
its input. -/
theorem fisherYates_perm (ds : List Nat) (l : List α) : (fisherYates ds l).Perm l :=
  fisherYatesAux_perm (l.length - 1) ds l
